import Mathlib

/-!
Shallow embedding of the memory-management core of the gsai_os kernel:
the physical frame allocator (src/kernel/src/memory/frame_allocator.rs),
the block allocator / kernel heap (src/kernel/src/block_malloc.rs, with its
near-duplicate twin src/libkernel/src/memory/block_allocator.rs), and the
typed address constructors (src/libkernel/src/addr.rs).

Machine integers (usize/u64) are modelled as Nat; wrap-around does not occur
on the traced paths, and u64 bit manipulation is explicit (`&&&`, `|||`,
`^^^`, `<<<` on Nat, masks bounded by 2^64).  Rust panics and failed
assertions are modelled by returning `none`.  The external virtual addressor
(page-table collaborator) is not reimplemented; its `map`/`unmap`/
`identity_map` calls are recorded as explicit event lists so theorems can
speak about which pages get (un)mapped and which frames get locked or freed.
-/

namespace GsaiOs

/-! ## Numeric helpers -/

/-- Modelled from the spec: libkernel's crate-root helper `align_up_div`
(the libkernel crate root is not among the provided sources; both block
allocators import it).  Ceiling division: the number of `alignment`-sized
units needed to hold `value`. -/
def align_up_div (value alignment : Nat) : Nat :=
  (value + alignment - 1) / alignment

/-- Modelled from the spec: libkernel's crate-root helper `align_down_div`
(same missing crate root).  Flooring division. -/
def align_down_div (value alignment : Nat) : Nat :=
  value / alignment

/-- Rust `usize::next_power_of_two`: the least power of two that is `≥ n`
(`1` for `n = 0`). -/
def nextPowerOfTwo (n : Nat) : Nat :=
  2 ^ Nat.clog 2 n

/-- u64::MAX. -/
def U64_MAX : Nat := 2 ^ 64 - 1

/-! ## Frame allocator (src/kernel/src/memory/frame_allocator.rs)

`FrameType` is stored two bits per frame in a packed bit array; the packed
representation is modelled as the list of per-frame states. -/

inductive FrameType where
  | Unallocated
  | Allocated
  | Reserved
  | Corrupted
deriving DecidableEq, Repr

/-- Modelled from the spec: `BitArray::set_eq` (the libkernel bit-array
source file is not among the provided sources).  The spec describes the
discipline it implements: "every transition is validated against the
expected prior state (a compare-and-set discipline)".  `set_eq` stores
`new` at `index` and reports success exactly when the stored value equals
`expect`; on mismatch (or out-of-range index) it reports failure and leaves
the array unchanged. -/
def setEq (m : List FrameType) (index : Nat) (new expect : FrameType) :
    Bool × List FrameType :=
  if index < m.length ∧ m.getD index expect = expect then
    (true, m.set index new)
  else
    (false, m)

/-- The `FrameAllocator` with its packed state map and the
`FrameAllocatorMemory` aggregate counters (one struct here; the Rust
`RwLock` wrappers around them serialize access and are dropped in this
sequential model). -/
structure FrameAllocator where
  memory_map : List FrameType
  total_memory : Nat
  free_memory : Nat
  used_memory : Nat
  reserved_memory : Nat
deriving DecidableEq, Repr

namespace FrameAllocator

/-- `FrameAllocator::free_frame`: compare-and-set the frame from Allocated
to Unallocated, moving 0x1000 bytes from the used counter to the free
counter; a mismatched prior state panics (`none`). -/
def free_frame (st : FrameAllocator) (frame : Nat) : Option FrameAllocator :=
  match setEq st.memory_map frame .Unallocated .Allocated with
  | (true, m) =>
    some { st with
      memory_map := m
      free_memory := st.free_memory + 0x1000
      used_memory := st.used_memory - 0x1000 }
  | (false, _) => none

/-- `FrameAllocator::lock_frame`: compare-and-set the frame from Unallocated
to Allocated, moving 0x1000 bytes from the free counter to the used
counter; a mismatched prior state panics (`none`). -/
def lock_frame (st : FrameAllocator) (frame : Nat) : Option FrameAllocator :=
  match setEq st.memory_map frame .Allocated .Unallocated with
  | (true, m) =>
    some { st with
      memory_map := m
      free_memory := st.free_memory - 0x1000
      used_memory := st.used_memory + 0x1000 }
  | (false, _) => none

/-- `FrameAllocator::reserve_frame`: compare-and-set the frame from
Unallocated to Reserved, moving 0x1000 bytes from the free counter to the
reserved counter; a mismatched prior state panics (`none`). -/
def reserve_frame (st : FrameAllocator) (frame : Nat) : Option FrameAllocator :=
  match setEq st.memory_map frame .Reserved .Unallocated with
  | (true, m) =>
    some { st with
      memory_map := m
      free_memory := st.free_memory - 0x1000
      reserved_memory := st.reserved_memory + 0x1000 }
  | (false, _) => none

/-- The scan inside `FrameAllocator::lock_next`: walk the map from index 0,
attempting `set_eq(index, Allocated, Unallocated)` at each index; the first
success returns that index.  A failed `set_eq` leaves the map unchanged, so
the net effect is: flip the first Unallocated frame to Allocated. -/
def lockNextGo : List FrameType → Option Nat × List FrameType
  | [] => (none, [])
  | f :: rest =>
    if f = .Unallocated then
      (some 0, .Allocated :: rest)
    else
      let (r, rest') := lockNextGo rest
      (r.map (· + 1), f :: rest')

/-- `FrameAllocator::lock_next`: returns the first Unallocated frame after
marking it Allocated in the bitmap.  Note the source touches only
`self.memory_map`; the `FrameAllocatorMemory` counters are not updated. -/
def lock_next (st : FrameAllocator) : Option Nat × FrameAllocator :=
  let (r, m) := lockNextGo st.memory_map
  (r, { st with memory_map := m })

/-- First index in `[lo, hi)` holding a frame that is not Unallocated
(the inner mismatch scan of `lock_next_count`). -/
def firstMismatch (m : List FrameType) (lo hi : Nat) : Option Nat :=
  (List.range' lo (hi - lo)).find? fun i => m.getD i .Unallocated ≠ .Unallocated

/-- One iteration of the outer loop of `FrameAllocator::lock_next_count`:
`none` means the loop continues to the next index, `some` means the body
executed `return Some(...)` with the updated map.  The body transcribes the
source faithfully, including the (ineffective) local rebinding of `index`
after a mismatch and the `index >= (index + count)` guard. -/
def lockNextCountBody (m : List FrameType) (count index : Nat) :
    Option ((Nat × Nat) × List FrameType) :=
  if m.getD index .Unallocated ≠ .Unallocated then
    none
  else
    let high_bound := min (index + count) m.length
    let mismatch := firstMismatch m (index + 1) high_bound
    let all_unallocated := mismatch = none
    let index' := match mismatch with
      | some inner_index => inner_index + 1
      | none => index
    if all_unallocated ∧ index' + count ≤ index' then
      let high_index := index' + count
      some ((index', high_index),
        (List.range' index' count).foldl (fun acc i => acc.set i .Allocated) m)
    else
      none

/-- `FrameAllocator::lock_next_count`: scan for a run of `count` contiguous
Unallocated frames; `some (low, high)` stands for
`Some(Frame::range_inclusive(low*0x1000..high*0x1000))`. -/
def lock_next_count (st : FrameAllocator) (count : Nat) :
    Option (Nat × Nat) × FrameAllocator :=
  match (List.range st.memory_map.length).findSome?
      (lockNextCountBody st.memory_map count) with
  | some (r, m') => (some r, { st with memory_map := m' })
  | none => (none, st)

end FrameAllocator

/-! ## Virtual addresses (src/libkernel/src/addr.rs) -/

/-- Reinterpret a usize bit pattern (`x < 2^64`) as an isize (Rust
`as isize`). -/
def usizeAsISize (x : Nat) : Int :=
  if x < 2 ^ 63 then (x : Int) else (x : Int) - 2 ^ 64

/-- Reinterpret an isize as a usize bit pattern (Rust `as usize`):
two's-complement value modulo 2^64. -/
def iSizeAsUSize (v : Int) : Nat :=
  (v % (2 ^ 64 : Int)).toNat

/-- `Address::<Virtual>::new_truncate(addr)`:
`(((addr << 16) as isize) >> 16) as usize` — sign-extension of bit 47.
The isize arithmetic right shift by 16 is flooring division by 2^16. -/
def virtualNewTruncate (addr : Nat) : Nat :=
  iSizeAsUSize ((usizeAsISize ((addr <<< 16) % 2 ^ 64)).fdiv (2 ^ 16))

/-- `Address::<Virtual>::new(addr)`: match on `addr >> 47`; `0` and
`0x1FFFF` are accepted as-is, `1` is routed through `new_truncate`, and
everything else panics ("given address is not canonical"). -/
def virtualNew (addr : Nat) : Option Nat :=
  if addr >>> 47 = 0 ∨ addr >>> 47 = 0x1FFFF then some addr
  else if addr >>> 47 = 1 then some (virtualNewTruncate addr)
  else none

/-- The top 17 bits (bits 47..63) of a 64-bit address are all equal: the
spec's wording of the canonical-address condition. -/
def Top17AllEqual (addr : Nat) : Prop :=
  ∀ i, 47 ≤ i → i < 64 → addr.testBit i = addr.testBit 47

/-! ## Block allocator (src/kernel/src/block_malloc.rs)

One `BlockPage` is the 256-bit occupancy bitmap for one page's worth of
16-byte blocks, stored as four u64 sections. -/

/-- `BlockAllocator::BLOCK_SIZE`. -/
def BLOCK_SIZE : Nat := 16

structure BlockPage where
  sections : List Nat
deriving DecidableEq, Repr

namespace BlockPage

/-- `BlockPage::SECTION_COUNT`. -/
def SECTION_COUNT : Nat := 4

/-- `BlockPage::SECTION_LEN` (bits per u64 section). -/
def SECTION_LEN : Nat := 64

/-- `BlockPage::BLOCK_COUNT` (blocks per page). -/
def BLOCK_COUNT : Nat := SECTION_COUNT * SECTION_LEN

/-- `BlockPage::empty()`. -/
def empty : BlockPage :=
  ⟨List.replicate SECTION_COUNT 0⟩

/-- `BlockPage::is_empty`. -/
def is_empty (bp : BlockPage) : Bool :=
  bp.sections.all (· = 0)

/-- `BlockPage::is_full`. -/
def is_full (bp : BlockPage) : Bool :=
  bp.sections.all (· = U64_MAX)

/-- `BlockPage::set_empty`. -/
def set_empty (bp : BlockPage) : BlockPage :=
  ⟨bp.sections.map fun _ => 0⟩

/-- `BlockPage::set_full`. -/
def set_full (bp : BlockPage) : BlockPage :=
  ⟨bp.sections.map fun _ => U64_MAX⟩

end BlockPage

/-- `SectionState`: "had bits before this op" vs "has bits after", per
section of the block page currently being processed. -/
structure SectionState where
  had_bits : Bool
  has_bits : Bool
deriving DecidableEq, Repr

namespace SectionState

/-- `SectionState::is_empty`. -/
def is_empty (s : SectionState) : Bool :=
  !s.had_bits && !s.has_bits

/-- `SectionState::is_alloc`. -/
def is_alloc (s : SectionState) : Bool :=
  !s.had_bits && s.has_bits

/-- `SectionState::is_dealloc`. -/
def is_dealloc (s : SectionState) : Bool :=
  s.had_bits && !s.has_bits

/-- `SectionState::should_alloc`. -/
def should_alloc (page_state : List SectionState) : Bool :=
  page_state.any (fun state => state.is_alloc) &&
    page_state.all (fun state => state.is_alloc || state.is_empty)

/-- `SectionState::should_dealloc`. -/
def should_dealloc (page_state : List SectionState) : Bool :=
  page_state.any (fun state => state.is_dealloc) &&
    page_state.all (fun state => state.is_dealloc || state.is_empty)

end SectionState

/-- Outcome of the three-tier bit-run search in `BlockAllocator::alloc`:
`found` models the `break 'outer` exit (a run of the requested length was
completed), `cont` models falling off the end of the map.  Both carry the
loop state `(block_index, current_run)` at exit. -/
inductive ScanRes where
  | found (block_index current_run : Nat)
  | cont (block_index current_run : Nat)
deriving DecidableEq, Repr

/-- Exit value of `block_index`. -/
def ScanRes.index : ScanRes → Nat
  | .found i _ => i
  | .cont i _ => i

/-- Exit value of `current_run`. -/
def ScanRes.run : ScanRes → Nat
  | .found _ r => r
  | .cont _ r => r

/-- The innermost loop of the search in `alloc`: iterate the 64 bits of one
section (`shift` list is `List.range 64`); a set bit resets the run, a
clear bit extends it when the run is open or may start it when the block
index meets the alignment; `break 'outer` as soon as the run reaches
`size_in_blocks`. -/
def allocScanBits (size_in_blocks alignment sec : Nat) :
    List Nat → Nat → Nat → ScanRes
  | [], block_index, current_run => .cont block_index current_run
  | shift :: rest, block_index, current_run =>
    let bit := sec &&& (1 <<< shift) != 0
    let current_run' :=
      if bit then 0
      else if current_run > 0 || block_index % alignment == 0 then current_run + 1
      else current_run
    let block_index' := block_index + 1
    if current_run' = size_in_blocks then .found block_index' current_run'
    else allocScanBits size_in_blocks alignment sec rest block_index' current_run'

/-- The middle loop of the search in `alloc`: an all-ones section is
skipped 64 blocks at a time with the run reset; otherwise drop to bit
granularity. -/
def allocScanSections (size_in_blocks alignment : Nat) :
    List Nat → Nat → Nat → ScanRes
  | [], block_index, current_run => .cont block_index current_run
  | sec :: rest, block_index, current_run =>
    if sec = U64_MAX then
      allocScanSections size_in_blocks alignment rest
        (block_index + BlockPage.SECTION_LEN) 0
    else
      match allocScanBits size_in_blocks alignment sec (List.range 64)
          block_index current_run with
      | .found i r => .found i r
      | .cont i r => allocScanSections size_in_blocks alignment rest i r

/-- The outer loop of the search in `alloc`: a full block page advances
the cursor a whole page with the run reset; otherwise inspect sections. -/
def allocScanPages (size_in_blocks alignment : Nat) :
    List BlockPage → Nat → Nat → ScanRes
  | [], block_index, current_run => .cont block_index current_run
  | bp :: rest, block_index, current_run =>
    if bp.is_full then
      allocScanPages size_in_blocks alignment rest
        (block_index + BlockPage.BLOCK_COUNT) 0
    else
      match allocScanSections size_in_blocks alignment bp.sections
          block_index current_run with
      | .found i r => .found i r
      | .cont i r => allocScanPages size_in_blocks alignment rest i r

/-- Modelled from the spec: `libkernel::U64_BIT_MASKS` (the libkernel crate
root holding the table is not among the provided sources).  Its in-tree
twin `BlockAllocator::MASK_MAP` (src/libkernel/src/memory/block_allocator.rs)
lists the same 64 values: entry `n` is the mask of `n + 1` low bits. -/
def U64_BIT_MASKS (n : Nat) : Nat :=
  2 ^ (n + 1) - 1

/-- `BlockAllocator::calculate_bit_fields`: bit count and mask for the
blocks of the current section that lie in `[block_index, end_block_index)`. -/
def calculate_bit_fields (map_index section_index end_block_index block_index : Nat) :
    Nat × Nat :=
  let traversed_blocks :=
    map_index * BlockPage.BLOCK_COUNT + section_index * BlockPage.SECTION_LEN
  let remaining_blocks := end_block_index - traversed_blocks
  let bit_offset := block_index - traversed_blocks
  let bit_count := min BlockPage.SECTION_LEN remaining_blocks - bit_offset
  (bit_count, U64_BIT_MASKS (bit_count - 1) <<< bit_offset)

/-- One section of the marking pass of `alloc`: record `had_bits`, then
either consume an `initial_section_skip`, or (while blocks remain) assert
the mask bits are clear ("attempting to allocate blocks that are already
allocated") and set them, then record `has_bits`. -/
def allocMarkSection (map_index section_index end_block_index sec block_index skip : Nat) :
    Option (Nat × SectionState × Nat × Nat) :=
  let had_bits := decide (0 < sec)
  if 0 < skip then
    some (sec, ⟨had_bits, decide (0 < sec)⟩, block_index, skip - 1)
  else if block_index < end_block_index then
    let fields := calculate_bit_fields map_index section_index end_block_index block_index
    if sec &&& fields.2 = 0 then
      let sec' := sec ||| fields.2
      some (sec', ⟨had_bits, decide (0 < sec')⟩, block_index + fields.1, skip)
    else
      none
  else
    some (sec, ⟨had_bits, decide (0 < sec)⟩, block_index, skip)

/-- The section loop of the marking pass of `alloc` over one block page,
threading `block_index` and the skip counter and collecting the page state. -/
def allocMarkSections (map_index end_block_index : Nat) :
    List Nat → Nat → Nat → Nat → Option (List Nat × List SectionState × Nat × Nat)
  | [], _, block_index, skip => some ([], [], block_index, skip)
  | sec :: rest, section_index, block_index, skip =>
    match allocMarkSection map_index section_index end_block_index sec block_index skip with
    | none => none
    | some (sec', st, block_index', skip') =>
      match allocMarkSections map_index end_block_index rest
          (section_index + 1) block_index' skip' with
      | none => none
      | some (rest', states, block_index'', skip'') =>
        some (sec' :: rest', st :: states, block_index'', skip'')

/-- The page loop of the marking pass of `alloc`
(`iter_mut().enumerate().skip(start).take(take_count)`): process
`take_count` pages; a page whose state satisfies `should_alloc` records an
alloc event (one `falloc::get().lock_next()` frame obtained and mapped to
that page, which is then zeroed). -/
def allocMarkPages (end_block_index : Nat) :
    List BlockPage → Nat → Nat → Nat → Nat →
      Option (List BlockPage × List Nat × Nat × Nat)
  | pages, _, 0, block_index, skip => some (pages, [], block_index, skip)
  | [], _, _ + 1, block_index, skip => some ([], [], block_index, skip)
  | bp :: rest, map_index, take_count + 1, block_index, skip =>
    match allocMarkSections map_index end_block_index bp.sections 0 block_index skip with
    | none => none
    | some (sections', page_state, block_index', skip') =>
      match allocMarkPages end_block_index rest (map_index + 1) take_count
          block_index' skip' with
      | none => none
      | some (rest', events, block_index'', skip'') =>
        let events' :=
          if SectionState.should_alloc page_state then map_index :: events
          else events
        some (⟨sections'⟩ :: rest', events', block_index'', skip'')

/-- The whole marking pass of `alloc` for the block range
`[start_block_index, end_block_index)`: pages before `start_map_index` are
not visited, the visited window is `take(align_up_div(end, 256) - start)`,
and `initial_section_skip` positions the pass within the first page. -/
def allocMark (map : List BlockPage) (start_block_index end_block_index : Nat) :
    Option (List BlockPage × List Nat) :=
  let start_map_index := start_block_index / BlockPage.BLOCK_COUNT
  let initial_section_skip :=
    align_down_div start_block_index BlockPage.SECTION_LEN -
      start_map_index * BlockPage.SECTION_COUNT
  let take_count :=
    align_up_div end_block_index BlockPage.BLOCK_COUNT - start_map_index
  match allocMarkPages end_block_index (map.drop start_map_index)
      start_map_index take_count start_block_index initial_section_skip with
  | none => none
  | some (back, events, _, _) => some (map.take start_map_index ++ back, events)

/-- `BlockAllocator::grow(required_blocks)`: asserts `required_blocks > 0`,
rounds the metadata page count up to the next power of two and fills the
newly uncovered entries with empty block pages.  (The metadata pages
themselves are mapped with frames from `falloc::lock_next`, not through
`alloc`; that bookkeeping concerns the map storage, not the `BlockPage`
entries, and is not tracked here.)  One map page of 0x1000 bytes holds
`0x1000 / size_of::<BlockPage>() = 128` block pages. -/
def grow (map : List BlockPage) (required_blocks : Nat) : Option (List BlockPage) :=
  if required_blocks = 0 then
    none
  else
    let BLOCKS_PER_MAP_PAGE := 8 * 0x1000
    let cur_map_len := map.length
    let cur_page_offset := cur_map_len * BlockPage.BLOCK_COUNT / BLOCKS_PER_MAP_PAGE
    let new_page_offset :=
      nextPowerOfTwo (cur_page_offset + align_up_div required_blocks BLOCKS_PER_MAP_PAGE)
    let new_map_len := new_page_offset * (0x1000 / 32)
    some (map ++ List.replicate (new_map_len - cur_map_len) BlockPage.empty)

/-- `BlockAllocator::alloc` (src/kernel/src/block_malloc.rs): compute
`size_in_blocks` and the effective alignment (downgraded to 16 unless the
requested alignment is a multiple of 16), search, grow-and-retry while the
search fails (`fuel` bounds the retries; the source loops unboundedly), and
on success run the marking pass.  Returns the pointer
`start_block_index * BLOCK_SIZE`, the new map, and the indices of the block
pages that were newly backed by a frame. -/
def alloc : Nat → List BlockPage → Nat → Nat → Option (Nat × List BlockPage × List Nat)
  | 0, _, _, _ => none
  | fuel + 1, map, size, align =>
    let size_in_blocks := (size + (BLOCK_SIZE - 1)) / BLOCK_SIZE
    let alignment := if align &&& (16 - 1) = 0 then align else 16
    let res := allocScanPages size_in_blocks alignment map 0 0
    if res.run < size_in_blocks then
      match grow map size_in_blocks with
      | none => none
      | some map' => alloc fuel map' size align
    else
      let start_block_index := res.index - res.run
      match allocMark map start_block_index res.index with
      | none => none
      | some (map', events) => some (start_block_index * BLOCK_SIZE, map', events)

/-- One section of the marking pass of `dealloc`: as in `alloc` but the
assertion is that the mask bits are all set ("attempting to deallocate
blocks that are already deallocated") and the bits are cleared by xor. -/
def deallocMarkSection (map_index section_index end_block_index sec block_index skip : Nat) :
    Option (Nat × SectionState × Nat × Nat) :=
  let had_bits := decide (0 < sec)
  if 0 < skip then
    some (sec, ⟨had_bits, decide (0 < sec)⟩, block_index, skip - 1)
  else if block_index < end_block_index then
    let fields := calculate_bit_fields map_index section_index end_block_index block_index
    if sec &&& fields.2 = fields.2 then
      let sec' := sec ^^^ fields.2
      some (sec', ⟨had_bits, decide (0 < sec')⟩, block_index + fields.1, skip)
    else
      none
  else
    some (sec, ⟨had_bits, decide (0 < sec)⟩, block_index, skip)

/-- The section loop of the marking pass of `dealloc`. -/
def deallocMarkSections (map_index end_block_index : Nat) :
    List Nat → Nat → Nat → Nat → Option (List Nat × List SectionState × Nat × Nat)
  | [], _, block_index, skip => some ([], [], block_index, skip)
  | sec :: rest, section_index, block_index, skip =>
    match deallocMarkSection map_index section_index end_block_index sec block_index skip with
    | none => none
    | some (sec', st, block_index', skip') =>
      match deallocMarkSections map_index end_block_index rest
          (section_index + 1) block_index' skip' with
      | none => none
      | some (rest', states, block_index'', skip'') =>
        some (sec' :: rest', st :: states, block_index'', skip'')

/-- The page loop of the marking pass of `dealloc`: a page whose state
satisfies `should_dealloc` records a dealloc event (its frame is freed via
`falloc::free_frame(translate_page(page))` and the page unmapped). -/
def deallocMarkPages (end_block_index : Nat) :
    List BlockPage → Nat → Nat → Nat → Nat →
      Option (List BlockPage × List Nat × Nat × Nat)
  | pages, _, 0, block_index, skip => some (pages, [], block_index, skip)
  | [], _, _ + 1, block_index, skip => some ([], [], block_index, skip)
  | bp :: rest, map_index, take_count + 1, block_index, skip =>
    match deallocMarkSections map_index end_block_index bp.sections 0 block_index skip with
    | none => none
    | some (sections', page_state, block_index', skip') =>
      match deallocMarkPages end_block_index rest (map_index + 1) take_count
          block_index' skip' with
      | none => none
      | some (rest', events, block_index'', skip'') =>
        let events' :=
          if SectionState.should_dealloc page_state then map_index :: events
          else events
        some (⟨sections'⟩ :: rest', events', block_index'', skip'')

/-- The whole marking pass of `dealloc` for `[start, end)`; the window
arithmetic matches the source's `end_map_index` computation. -/
def deallocMark (map : List BlockPage) (start_block_index end_block_index : Nat) :
    Option (List BlockPage × List Nat) :=
  let start_map_index := start_block_index / BlockPage.BLOCK_COUNT
  let initial_section_skip :=
    align_down_div start_block_index BlockPage.SECTION_LEN -
      start_map_index * BlockPage.SECTION_COUNT
  let end_map_index :=
    align_up_div end_block_index BlockPage.BLOCK_COUNT - start_map_index
  match deallocMarkPages end_block_index (map.drop start_map_index)
      start_map_index end_map_index start_block_index initial_section_skip with
  | none => none
  | some (back, events, _, _) => some (map.take start_map_index ++ back, events)

/-- `BlockAllocator::dealloc(ptr, size)` (src/kernel/src/block_malloc.rs):
compute the block range back from the pointer and size and clear it.
Returns the new map and the indices of the block pages whose backing frame
was freed and unmapped. -/
def dealloc (map : List BlockPage) (ptr size : Nat) : Option (List BlockPage × List Nat) :=
  let start_block_index := ptr / BLOCK_SIZE
  let end_block_index := start_block_index + align_up_div size BLOCK_SIZE
  deallocMark map start_block_index end_block_index

/-- The search loop of `BlockAllocator::alloc_to`: count a run of
wholly-empty block pages, breaking once it reaches `size_in_frames`. -/
def allocToScan (size_in_frames : Nat) : List BlockPage → Nat → Nat → Nat × Nat
  | [], map_index, current_run => (map_index, current_run)
  | bp :: rest, map_index, current_run =>
    let current_run' := if bp.is_empty then current_run + 1 else 0
    let map_index' := map_index + 1
    if current_run' = size_in_frames then (map_index', current_run')
    else allocToScan size_in_frames rest map_index' current_run'

/-- The marking loop of `alloc_to` (kernel version,
src/kernel/src/block_malloc.rs lines 532..545): each visited page is set
full and mapped — to `frames.start()`, the first frame of the run, the
iterator being behind an immutable borrow.  Events are
`(page_index, frame_index)` pairs in visit order. -/
def allocToMarkPages (frame_start : Nat) :
    List BlockPage → Nat → Nat → List BlockPage × List (Nat × Nat)
  | pages, _, 0 => (pages, [])
  | [], _, _ => ([], [])
  | bp :: rest, map_index, take_count + 1 =>
    let r := allocToMarkPages frame_start rest (map_index + 1) take_count
    (bp.set_full :: r.1, (map_index, frame_start) :: r.2)

/-- `BlockAllocator::alloc_to(frames)` (src/kernel/src/block_malloc.rs):
the input `FrameIterator` is a contiguous run, modelled from the spec as
its start index and length (libkernel's frame.rs is not among the provided
sources; the spec: "A FrameIterator (ordered sequence of Frame) represents
a contiguous run").  Search for a run of empty pages, growing on failure,
then mark and map.  Returns `start_index * 0x1000`, the new map, and the
`(page, frame)` map events. -/
def alloc_to : Nat → List BlockPage → Nat → Nat →
    Option (Nat × List BlockPage × List (Nat × Nat))
  | 0, _, _, _ => none
  | fuel + 1, map, frame_start, frame_len =>
    let size_in_frames := frame_len
    let scanned := allocToScan size_in_frames map 0 0
    if scanned.2 < size_in_frames then
      match grow map (size_in_frames * BlockPage.BLOCK_COUNT) with
      | none => none
      | some map' => alloc_to fuel map' frame_start frame_len
    else
      let start_index := scanned.1 - scanned.2
      let marked := allocToMarkPages frame_start (map.drop start_index)
        start_index size_in_frames
      some (start_index * 0x1000, map.take start_index ++ marked.1, marked.2)

/-- `BlockAllocator::identity_map(frame, map)` (src/kernel/src/block_malloc.rs):
grow if the frame index is not yet covered, then — in the source — call
`set_empty()` on the entry, assert `is_empty()` (which at that point always
holds), and `set_full()` it; when `map` is true the frame is also
identity-mapped in the addressor (the returned event list).  Indexing past
the map length panics (`none`). -/
def identity_map (map : List BlockPage) (frame_index : Nat) (do_map : Bool) :
    Option (List BlockPage × List Nat) :=
  let grown :=
    if map.length ≤ frame_index then
      grow map ((frame_index - map.length + 1) * BlockPage.BLOCK_COUNT)
    else
      some map
  match grown with
  | none => none
  | some m =>
    if h : frame_index < m.length then
      let block_page := (m.get ⟨frame_index, h⟩).set_empty
      if block_page.is_empty then
        some (m.set frame_index block_page.set_full,
          if do_map then [frame_index] else [])
      else
        none
    else
      none

/-! ## Derived views used by the theorems -/

/-- The block page at index `i`; indices past the end read as empty
(the map only ever grows by appending empty pages). -/
def pageAt (map : List BlockPage) (i : Nat) : BlockPage :=
  map.getD i BlockPage.empty

/-- Bit `b % 256` of a page's 256-bit bitmap, read from its u64 sections. -/
def sectionsTestBit (sections : List Nat) (b : Nat) : Bool :=
  (sections.getD (b / 64) 0).testBit (b % 64)

/-- Occupancy bit of block `b` of the whole map (page `b / 256`,
bit `b % 256`). -/
def mapTestBit (map : List BlockPage) (b : Nat) : Bool :=
  sectionsTestBit (pageAt map (b / 256)).sections (b % 256)

/-- Every block page of the map consists of exactly four u64 sections
(the `[u64; 4]` representation invariant). -/
def MapWF (map : List BlockPage) : Prop :=
  ∀ bp ∈ map, bp.sections.length = BlockPage.SECTION_COUNT

/-! ## Frame allocator lemmas -/

namespace FrameAllocator

theorem lockNextGo_none : ∀ (l l₂ : List FrameType),
    lockNextGo l = (none, l₂) → l₂ = l := by
  intro l
  induction l with
  | nil => intro l₂ h; exact (congrArg Prod.snd h).symm
  | cons f rest ih =>
    intro l₂ h
    by_cases hf : f = .Unallocated
    · simp [lockNextGo, hf] at h
    · rw [lockNextGo, if_neg hf] at h
      obtain ⟨h₁, h₂⟩ := Prod.mk.injEq .. ▸ h
      rcases hr : lockNextGo rest with ⟨r, rest'⟩
      rw [hr] at h₁ h₂
      cases r with
      | none => simp only at h₂; rw [← h₂, ih rest' hr]
      | some j => simp at h₁

theorem lockNextGo_some : ∀ (l : List FrameType) (j : Nat) (l₂ : List FrameType),
    lockNextGo l = (some j, l₂) →
      l.getD j .Corrupted = .Unallocated ∧ l₂ = l.set j .Allocated := by
  intro l
  induction l with
  | nil => intro j l₂ h; simp [lockNextGo] at h
  | cons f rest ih =>
    intro j l₂ h
    by_cases hf : f = .Unallocated
    · rw [lockNextGo, if_pos hf] at h
      obtain ⟨h₁, h₂⟩ := Prod.mk.injEq .. ▸ h
      cases h₁
      exact ⟨by simp [hf], by simp [← h₂]⟩
    · rw [lockNextGo, if_neg hf] at h
      rcases hr : lockNextGo rest with ⟨r, rest'⟩
      rw [hr] at h
      obtain ⟨h₁, h₂⟩ := Prod.mk.injEq .. ▸ h
      cases r with
      | none => simp at h₁
      | some j' =>
        replace h₁ : some (j' + 1) = some j := h₁
        cases h₁
        obtain ⟨hg, hs⟩ := ih j' rest' hr
        exact ⟨by simpa using hg, by simp [← h₂, hs]⟩

theorem lockNextCountBody_map_eq (m : List FrameType) (count i : Nat) :
    ∀ r m', lockNextCountBody m count i = some (r, m') → count = 0 ∧ m' = m := by
  intro r m' h
  simp only [lockNextCountBody] at h
  split at h
  · exact absurd h (by simp)
  · split at h
    · next hc =>
      have hcount : count = 0 := by omega
      refine ⟨hcount, ?_⟩
      obtain ⟨-, h₂⟩ := Prod.mk.injEq .. ▸ (Option.some.injEq .. ▸ h)
      subst hcount
      simpa using h₂.symm
    · exact absurd h (by simp)

theorem lockNextCountBody_eq_none (m : List FrameType) (count i : Nat)
    (h : 1 ≤ count) : lockNextCountBody m count i = none := by
  rcases hb : lockNextCountBody m count i with - | ⟨r, m'⟩
  · rfl
  · obtain ⟨hc, -⟩ := lockNextCountBody_map_eq m count i r m' hb
    omega

theorem setEq_eq_true (m : List FrameType) (i : Nat) (new expect : FrameType)
    (m' : List FrameType) (h : setEq m i new expect = (true, m')) :
    m' = m.set i new ∧ i < m.length ∧ m.getD i expect = expect := by
  simp only [setEq] at h
  split at h
  · next hc =>
    obtain ⟨-, h₂⟩ := Prod.mk.injEq .. ▸ h
    exact ⟨h₂.symm, hc⟩
  · exact absurd (congrArg Prod.fst h) (by simp)

theorem setEq_spec (m : List FrameType) (i : Nat) (new expect : FrameType)
    (hi : i < m.length) :
    setEq m i new expect =
      if m.getD i .Corrupted = expect then (true, m.set i new) else (false, m) := by
  have hgd : m.getD i expect = m.getD i .Corrupted := by
    rw [List.getD_eq_getElem _ _ hi, List.getD_eq_getElem _ _ hi]
  simp only [setEq, hgd, hi, true_and]

theorem free_frame_spec (st : FrameAllocator) (i : Nat) (hi : i < st.memory_map.length) :
    st.free_frame i =
      if st.memory_map.getD i .Corrupted = .Allocated then
        some { st with
          memory_map := st.memory_map.set i .Unallocated
          free_memory := st.free_memory + 0x1000
          used_memory := st.used_memory - 0x1000 }
      else none := by
  simp only [free_frame, setEq_spec st.memory_map i _ _ hi]
  split <;> rename_i mm hq <;> split at hq <;> simp_all

theorem lock_frame_spec (st : FrameAllocator) (i : Nat) (hi : i < st.memory_map.length) :
    st.lock_frame i =
      if st.memory_map.getD i .Corrupted = .Unallocated then
        some { st with
          memory_map := st.memory_map.set i .Allocated
          free_memory := st.free_memory - 0x1000
          used_memory := st.used_memory + 0x1000 }
      else none := by
  simp only [lock_frame, setEq_spec st.memory_map i _ _ hi]
  split <;> rename_i mm hq <;> split at hq <;> simp_all

theorem reserve_frame_spec (st : FrameAllocator) (i : Nat) (hi : i < st.memory_map.length) :
    st.reserve_frame i =
      if st.memory_map.getD i .Corrupted = .Unallocated then
        some { st with
          memory_map := st.memory_map.set i .Reserved
          free_memory := st.free_memory - 0x1000
          reserved_memory := st.reserved_memory + 0x1000 }
      else none := by
  simp only [reserve_frame, setEq_spec st.memory_map i _ _ hi]
  split <;> rename_i mm hq <;> split at hq <;> simp_all

theorem lock_next_count_map_unchanged (st : FrameAllocator) (count : Nat) :
    (st.lock_next_count count).2 = st := by
  unfold lock_next_count
  rcases hf : (List.range st.memory_map.length).findSome?
      (lockNextCountBody st.memory_map count) with - | ⟨r, m'⟩
  · rfl
  · obtain ⟨i, -, hi⟩ := List.exists_of_findSome?_eq_some hf
    obtain ⟨-, hm⟩ := lockNextCountBody_map_eq st.memory_map count i r m' hi
    simp [hm]

end FrameAllocator

/-! ## Claim C2 -/

/-- C2 (code bug): the claim states that whenever the frame bitmap contains
a run of `n ≥ 1` contiguous Unallocated frames, `lock_next_count(n)`
returns `Some` run; but the guard `index >= (index + count)` in the source
can never hold for `count ≥ 1`, so the function returns `None` for every
map state and every `count ≥ 1` (and never modifies the bitmap) — the
entire success path, including its trace message, is dead code. -/
theorem c2_lock_next_count_always_none (st : FrameAllocator) (count : Nat)
    (h : 1 ≤ count) : st.lock_next_count count = (none, st) := by
  unfold FrameAllocator.lock_next_count
  have hnone : (List.range st.memory_map.length).findSome?
      (FrameAllocator.lockNextCountBody st.memory_map count) = none :=
    List.findSome?_eq_none_iff.mpr fun i _ =>
      FrameAllocator.lockNextCountBody_eq_none st.memory_map count i h
  rw [hnone]

/-- Witness for C2 at a concrete state: a map of two Unallocated frames
(which does contain a run of length 1) still yields `None`. -/
theorem c2_lock_next_count_always_none_witness :
    (1 : Nat) ≤ 1 ∧
      FrameAllocator.lock_next_count
          ⟨[.Unallocated, .Unallocated], 0x2000, 0x2000, 0, 0⟩ 1 =
        (none, ⟨[.Unallocated, .Unallocated], 0x2000, 0x2000, 0, 0⟩) :=
  ⟨le_refl 1,
    c2_lock_next_count_always_none ⟨[.Unallocated, .Unallocated], 0x2000, 0x2000, 0, 0⟩ 1
      (le_refl 1)⟩

/-! ## Claims C4 and C10 -/

/-- C4: for every in-range frame, `free_frame` succeeds iff the frame is
currently Allocated (setting it Unallocated), `lock_frame` succeeds iff it
is currently Unallocated (setting it Allocated), `reserve_frame` succeeds
iff it is currently Unallocated (setting it Reserved); a mismatched prior
state panics (`none`), and the remaining operations that touch the map
also only perform compare-and-set transitions: `lock_next` flips one frame
Unallocated → Allocated (or leaves the map untouched), and
`lock_next_count` never changes the map at all. -/
theorem c4_frame_state_compare_and_set (st : FrameAllocator) (i : Nat)
    (hi : i < st.memory_map.length) :
    ((st.free_frame i).isSome ↔ st.memory_map.getD i .Corrupted = .Allocated) ∧
    (∀ st', st.free_frame i = some st' →
      st'.memory_map = st.memory_map.set i .Unallocated) ∧
    ((st.lock_frame i).isSome ↔ st.memory_map.getD i .Corrupted = .Unallocated) ∧
    (∀ st', st.lock_frame i = some st' →
      st'.memory_map = st.memory_map.set i .Allocated) ∧
    ((st.reserve_frame i).isSome ↔ st.memory_map.getD i .Corrupted = .Unallocated) ∧
    (∀ st', st.reserve_frame i = some st' →
      st'.memory_map = st.memory_map.set i .Reserved) ∧
    (∀ j st', st.lock_next = (some j, st') →
      st.memory_map.getD j .Corrupted = .Unallocated ∧
      st'.memory_map = st.memory_map.set j .Allocated) ∧
    (∀ st', st.lock_next = (none, st') → st' = st) ∧
    (∀ count, (st.lock_next_count count).2 = st) := by
  have hd : ∀ d, st.memory_map.getD i d = st.memory_map.getD i .Corrupted := by
    intro d
    rw [List.getD_eq_getElem st.memory_map d hi, List.getD_eq_getElem st.memory_map _ hi]
  clear hd
  refine ⟨?_, ?_, ?_, ?_, ?_, ?_, ?_, ?_, ?_⟩
  · rw [FrameAllocator.free_frame_spec st i hi]
    split <;> simp_all
  · intro st' h
    rw [FrameAllocator.free_frame_spec st i hi] at h
    split at h <;> simp_all
    rw [← h]
  · rw [FrameAllocator.lock_frame_spec st i hi]
    split <;> simp_all
  · intro st' h
    rw [FrameAllocator.lock_frame_spec st i hi] at h
    split at h <;> simp_all
    rw [← h]
  · rw [FrameAllocator.reserve_frame_spec st i hi]
    split <;> simp_all
  · intro st' h
    rw [FrameAllocator.reserve_frame_spec st i hi] at h
    split at h <;> simp_all
    rw [← h]
  · intro j st' h
    simp only [FrameAllocator.lock_next] at h
    rcases hr : FrameAllocator.lockNextGo st.memory_map with ⟨r, m⟩
    rw [hr] at h
    obtain ⟨h₁, h₂⟩ := Prod.mk.injEq .. ▸ h
    cases h₁
    obtain ⟨hg, hs⟩ := FrameAllocator.lockNextGo_some st.memory_map j m hr
    exact ⟨hg, by rw [← h₂, hs]⟩
  · intro st' h
    simp only [FrameAllocator.lock_next] at h
    rcases hr : FrameAllocator.lockNextGo st.memory_map with ⟨r, m⟩
    rw [hr] at h
    obtain ⟨h₁, h₂⟩ := Prod.mk.injEq .. ▸ h
    cases h₁
    rw [← h₂, FrameAllocator.lockNextGo_none st.memory_map m hr]
  · exact fun count => FrameAllocator.lock_next_count_map_unchanged st count

/-- Witness for C4 at a concrete single-frame state. -/
theorem c4_frame_state_compare_and_set_witness :
    0 < 1 ∧
      (((FrameAllocator.free_frame ⟨[.Allocated], 0x1000, 0, 0x1000, 0⟩ 0).isSome ↔
          [FrameType.Allocated].getD 0 .Corrupted = .Allocated) ∧ True) := by
  have h := c4_frame_state_compare_and_set ⟨[.Allocated], 0x1000, 0, 0x1000, 0⟩ 0
    (by decide)
  exact ⟨Nat.zero_lt_one, h.1, trivial⟩

/-- C10: `lock_next` marks the returned frame Allocated in the bitmap but
leaves all four aggregate counters exactly as they were (the source never
touches `self.memory`), whereas `lock_frame` moves 0x1000 bytes from the
free counter to the used counter for the same
Unallocated → Allocated transition. -/
theorem c10_lock_next_leaves_counters (st : FrameAllocator) :
    (∀ j st', st.lock_next = (some j, st') →
      st'.total_memory = st.total_memory ∧
      st'.free_memory = st.free_memory ∧
      st'.used_memory = st.used_memory ∧
      st'.reserved_memory = st.reserved_memory ∧
      st'.memory_map = st.memory_map.set j .Allocated ∧
      st.memory_map.getD j .Corrupted = .Unallocated) ∧
    (∀ (st₂ st₂' : FrameAllocator) (k : Nat), st₂.lock_frame k = some st₂' →
      st₂'.free_memory = st₂.free_memory - 0x1000 ∧
      st₂'.used_memory = st₂.used_memory + 0x1000 ∧
      st₂'.total_memory = st₂.total_memory ∧
      st₂'.reserved_memory = st₂.reserved_memory ∧
      st₂'.memory_map = st₂.memory_map.set k .Allocated ∧
      st₂.memory_map.getD k .Unallocated = .Unallocated) := by
  constructor
  · intro j st' h
    simp only [FrameAllocator.lock_next] at h
    rcases hr : FrameAllocator.lockNextGo st.memory_map with ⟨r, m⟩
    rw [hr] at h
    obtain ⟨h₁, h₂⟩ := Prod.mk.injEq .. ▸ h
    cases h₁
    obtain ⟨hg, hs⟩ := FrameAllocator.lockNextGo_some st.memory_map j m hr
    rw [← h₂]
    exact ⟨rfl, rfl, rfl, rfl, hs, hg⟩
  · intro st₂ st₂' k h
    simp only [FrameAllocator.lock_frame] at h
    rcases hse : setEq st₂.memory_map k .Allocated .Unallocated with ⟨b, mm⟩
    rw [hse] at h
    cases b
    · exact absurd h (by simp)
    · obtain ⟨hm, -, hg⟩ := FrameAllocator.setEq_eq_true _ _ _ _ _ hse
      replace h : some { st₂ with
          memory_map := mm
          free_memory := st₂.free_memory - 0x1000
          used_memory := st₂.used_memory + 0x1000 } = some st₂' := h
      cases Option.some.injEq .. ▸ h
      exact ⟨rfl, rfl, rfl, rfl, hm, hg⟩

/-- Witness for C10 at a concrete state: `lock_next` on a one-frame map. -/
theorem c10_lock_next_leaves_counters_witness :
    FrameAllocator.lock_next ⟨[.Unallocated], 0x1000, 0x1000, 0, 0⟩ =
      (some 0, ⟨[.Allocated], 0x1000, 0x1000, 0, 0⟩) ∧
    (⟨[.Allocated], 0x1000, 0x1000, 0, 0⟩ : FrameAllocator).free_memory =
      (⟨[.Unallocated], 0x1000, 0x1000, 0, 0⟩ : FrameAllocator).free_memory := by
  have h := (c10_lock_next_leaves_counters ⟨[.Unallocated], 0x1000, 0x1000, 0, 0⟩).1
    0 ⟨[.Allocated], 0x1000, 0x1000, 0, 0⟩ (by decide)
  exact ⟨by decide, h.2.1⟩

/-! ## Claim C9 -/

/-- Sign-extension characterization of `Address::<Virtual>::new_truncate`:
the result keeps the low 48 bits and replicates bit 47 into bits 48..63. -/
theorem virtualNewTruncate_eq (addr : Nat) :
    virtualNewTruncate addr =
      addr % 2 ^ 48 + (if addr.testBit 47 then 2 ^ 64 - 2 ^ 48 else 0) := by
  have hx : (addr <<< 16) % 2 ^ 64 = (addr % 2 ^ 48) * 2 ^ 16 := by
    rw [Nat.shiftLeft_eq, show (2 : Nat) ^ 64 = 2 ^ 48 * 2 ^ 16 by norm_num,
      Nat.mul_mod_mul_right]
  set a := addr % 2 ^ 48 with ha
  have halt : a < 2 ^ 48 := Nat.mod_lt _ (by norm_num)
  have htb : addr.testBit 47 = decide (2 ^ 47 ≤ a) := by
    have h1 : addr.testBit 47 = a.testBit 47 := by
      rw [ha, Nat.testBit_mod_two_pow]
      simp
    rw [h1, Nat.testBit_to_div_mod]
    have hd : a / 2 ^ 47 < 2 := by omega
    rcases Nat.lt_or_ge a (2 ^ 47) with hlt | hge
    · have h0 : a / 2 ^ 47 = 0 := Nat.div_eq_of_lt hlt
      simp [h0]
      omega
    · have h1' : a / 2 ^ 47 = 1 := by omega
      simp [h1']
      omega
  unfold virtualNewTruncate
  rw [hx, htb]
  rcases Nat.lt_or_ge a (2 ^ 47) with hlt | hge
  · have hcase : (a * 2 ^ 16 : Nat) < 2 ^ 63 := by
      have h63 : (2 : Nat) ^ 63 = 2 ^ 47 * 2 ^ 16 := by norm_num
      rw [h63]
      exact mul_lt_mul_of_pos_right hlt (by norm_num)
    rw [usizeAsISize, if_pos hcase]
    have hfd : ((a * 2 ^ 16 : Nat) : Int).fdiv (2 ^ 16) = (a : Int) := by
      push_cast
      exact Int.mul_fdiv_cancel _ (by norm_num)
    rw [hfd, iSizeAsUSize, Int.emod_eq_of_lt (by positivity) (by push_cast; omega)]
    simp only [Int.toNat_natCast, decide_eq_true_eq]
    rw [if_neg (by omega)]
    omega
  · have hcase : ¬ ((a * 2 ^ 16 : Nat) < 2 ^ 63) := by
      push_neg
      calc (2 : Nat) ^ 63 = 2 ^ 47 * 2 ^ 16 := by norm_num
        _ ≤ a * 2 ^ 16 := Nat.mul_le_mul_right _ hge
    rw [usizeAsISize, if_neg hcase]
    have hfe : ((a * 2 ^ 16 : Nat) : Int) - 2 ^ 64 = ((a : Int) - 2 ^ 48) * 2 ^ 16 := by
      push_cast
      ring
    rw [hfe]
    have hfd : (((a : Int) - 2 ^ 48) * 2 ^ 16).fdiv (2 ^ 16) = (a : Int) - 2 ^ 48 :=
      Int.mul_fdiv_cancel _ (by norm_num)
    rw [hfd, iSizeAsUSize]
    have hmod : ((a : Int) - 2 ^ 48) % 2 ^ 64 = (a : Int) + (2 ^ 64 - 2 ^ 48) := by
      have h2 : ((a : Int) - 2 ^ 48) % 2 ^ 64 = ((a : Int) - 2 ^ 48 + 2 ^ 64) % 2 ^ 64 := by
        omega
      rw [h2, Int.emod_eq_of_lt (by push_cast; omega) (by push_cast; omega)]
      ring
    rw [hmod]
    simp only [decide_eq_true_eq]
    rw [if_pos (by omega : 2 ^ 47 ≤ a)]
    omega


/-- For a 64-bit address, "top 17 bits all equal" is exactly
`addr >> 47 = 0` or `addr >> 47 = 0x1FFFF`. -/
theorem top17AllEqual_iff (addr : Nat) (h : addr < 2 ^ 64) :
    Top17AllEqual addr ↔ (addr >>> 47 = 0 ∨ addr >>> 47 = 0x1FFFF) := by
  have hy : addr >>> 47 < 2 ^ 17 := by
    rw [Nat.shiftRight_eq_div_pow]
    have : addr / 2 ^ 47 < 2 ^ 17 ↔ addr < 2 ^ 17 * 2 ^ 47 :=
      Nat.div_lt_iff_lt_mul (by norm_num)
    rw [this]
    omega
  have hty : ∀ j, (addr >>> 47).testBit j = addr.testBit (47 + j) := by
    intro j
    exact Nat.testBit_shiftRight addr
  have hiff : Top17AllEqual addr ↔
      ∀ j, j < 17 → (addr >>> 47).testBit j = (addr >>> 47).testBit 0 := by
    constructor
    · intro h17 j hj
      rw [hty j, hty 0]
      exact h17 (47 + j) (by omega) (by omega)
    · intro h17 i hi₁ hi₂
      have := h17 (i - 47) (by omega)
      rw [hty, hty] at this
      have hi : 47 + (i - 47) = i := by omega
      rw [hi] at this
      exact this
  rw [hiff]
  constructor
  · intro h17
    by_cases h0 : (addr >>> 47).testBit 0
    · right
      have : addr >>> 47 = 2 ^ 17 - 1 := by
        apply Nat.eq_of_testBit_eq
        intro i
        rw [Nat.testBit_two_pow_sub_one]
        by_cases hi : i < 17
        · rw [h17 i hi, h0]
          simp [hi]
        · rw [Nat.testBit_lt_two_pow (lt_of_lt_of_le hy (Nat.pow_le_pow_right (by norm_num) (by omega)))]
          simp [hi]
      rw [this]
      norm_num
    · left
      apply Nat.eq_of_testBit_eq
      intro i
      rw [Nat.zero_testBit]
      by_cases hi : i < 17
      · rw [h17 i hi]
        exact Bool.not_eq_true _ ▸ (by simpa using h0)
      · exact Nat.testBit_lt_two_pow (lt_of_lt_of_le hy (Nat.pow_le_pow_right (by norm_num) (by omega)))
  · rintro (h0 | h1) j hj
    · rw [h0]
      rw [Nat.zero_testBit, Nat.zero_testBit]
    · rw [h1]
      have h131071 : (131071 : Nat) = 2 ^ 17 - 1 := by norm_num
      rw [h131071, Nat.testBit_two_pow_sub_one, Nat.testBit_two_pow_sub_one]
      simp [hj]

/-- In the `addr >> 47 == 1` arm, `new_truncate` changes the address. -/
theorem virtualNewTruncate_ne (addr : Nat) (h1 : addr >>> 47 = 1) :
    virtualNewTruncate addr ≠ addr := by
  have h47 : (2 : Nat) ^ 47 = 140737488355328 := by norm_num
  have h48 : (2 : Nat) ^ 48 = 281474976710656 := by norm_num
  have hdiv := Nat.shiftRight_eq_div_pow addr 47
  rw [h1] at hdiv
  have hrange : 2 ^ 47 ≤ addr ∧ addr < 2 ^ 48 := by
    rw [h47, h48]
    omega
  have hmod : addr % 2 ^ 48 = addr := Nat.mod_eq_of_lt hrange.2
  have htb : addr.testBit 47 = true := by
    rw [Nat.testBit_to_div_mod]
    simp
    omega
  rw [virtualNewTruncate_eq, htb, if_pos rfl, hmod]
  omega

/-- C9 (amended): `Address::<Virtual>::new(addr)` returns `addr` itself
exactly when the top 17 bits of `addr` are all equal; but when
`addr >> 47 == 1` (bit 47 set, bits 48..63 clear) it does not panic —
it silently returns the sign-extended truncation `new_truncate(addr)`,
which differs from `addr`; for every other `addr` it panics. -/
theorem c9_virtual_new_canonical (addr : Nat) (h : addr < 2 ^ 64) :
    (virtualNew addr = some addr ↔ Top17AllEqual addr) ∧
    (addr >>> 47 = 1 →
      virtualNew addr = some (virtualNewTruncate addr) ∧
      virtualNewTruncate addr ≠ addr) ∧
    (addr >>> 47 ≠ 0 → addr >>> 47 ≠ 1 → addr >>> 47 ≠ 0x1FFFF →
      virtualNew addr = none) := by
  refine ⟨?_, ?_, ?_⟩
  · rw [top17AllEqual_iff addr h]
    constructor
    · intro hsome
      unfold virtualNew at hsome
      split at hsome
      · assumption
      · split at hsome
        · next hc h1 =>
          exact absurd (Option.some.injEq .. ▸ hsome) (virtualNewTruncate_ne addr h1)
        · exact absurd hsome (by simp)
    · intro hcond
      rw [virtualNew, if_pos hcond]
  · intro h1
    have hne : ¬ (addr >>> 47 = 0 ∨ addr >>> 47 = 0x1FFFF) := by
      rw [h1]
      rintro (hc | hc) <;> simp at hc
    rw [virtualNew, if_neg hne, if_pos h1]
    exact ⟨rfl, virtualNewTruncate_ne addr h1⟩
  · intro h0 h1 h17
    rw [virtualNew, if_neg (by tauto), if_neg h1]

/-- Witness for C9 at the concrete address 0. -/
theorem c9_virtual_new_canonical_witness :
    (0 : Nat) < 2 ^ 64 ∧ (virtualNew 0 = some 0 ↔ Top17AllEqual 0) :=
  ⟨by norm_num, (c9_virtual_new_canonical 0 (by norm_num)).1⟩

/-- C9 counterexample: at `addr = 2^47` the top 17 bits are not all equal,
yet the constructor does not panic; it returns `0xFFFF800000000000`, a
value different from the given address — refuting both "panics for every
other addr" and "only new_truncate may alter the given bits". -/
theorem c9_virtual_new_counterexample :
    virtualNew (2 ^ 47) = some 0xFFFF800000000000 ∧
    (0xFFFF800000000000 : Nat) ≠ 2 ^ 47 ∧
    ¬ Top17AllEqual (2 ^ 47) := by
  refine ⟨by decide, by decide, fun h17 => ?_⟩
  have := h17 48 (by omega) (by omega)
  revert this
  decide

/-! ## Claim C7 -/

/-- Unfolding `grow` on the non-panicking path: the map is extended by
empty pages up to the next power-of-two metadata size. -/
theorem grow_eq_append (map : List BlockPage) (required_blocks : Nat)
    (h : required_blocks ≠ 0) :
    grow map required_blocks =
      some (map ++ List.replicate
        (nextPowerOfTwo (map.length * BlockPage.BLOCK_COUNT / (8 * 0x1000) +
            align_up_div required_blocks (8 * 0x1000)) * (0x1000 / 32) -
          map.length)
        BlockPage.empty) := by
  simp only [grow, if_neg h]

/-- The grown metadata size strictly exceeds the current map length. -/
theorem grow_new_len_lt (c required_blocks : Nat) (h : 1 ≤ required_blocks) :
    c < nextPowerOfTwo (c * BlockPage.BLOCK_COUNT / (8 * 0x1000) +
        align_up_div required_blocks (8 * 0x1000)) * (0x1000 / 32) := by
  have h1 : c * BlockPage.BLOCK_COUNT / (8 * 0x1000) = c / 128 := by
    show c * 256 / (8 * 0x1000) = c / 128
    rw [show (8 * 0x1000 : Nat) = 128 * 256 from rfl, Nat.mul_div_mul_right _ _ (by norm_num)]
  have h2 : 1 ≤ align_up_div required_blocks (8 * 0x1000) := by
    unfold align_up_div
    omega
  have h3 : c / 128 + align_up_div required_blocks (8 * 0x1000) ≤
      nextPowerOfTwo (c / 128 + align_up_div required_blocks (8 * 0x1000)) :=
    Nat.le_pow_clog (by norm_num) _
  rw [h1]
  have h4 : (0x1000 / 32 : Nat) = 128 := rfl
  rw [h4]
  omega

/-- C7 (amended): for every map state and every `required_blocks ≥ 1`,
`grow` succeeds, the map becomes strictly longer, the first
`map.length` block pages are bitwise unchanged, and every newly added
entry is empty.  (For `required_blocks = 0` the source asserts
"calls to grow must be nonzero" and panics, see the counterexample.) -/
theorem c7_grow_preserves_and_extends (map : List BlockPage) (required_blocks : Nat)
    (h : 1 ≤ required_blocks) :
    ∃ map', grow map required_blocks = some map' ∧
      map.length < map'.length ∧
      (∀ i, i < map.length → pageAt map' i = pageAt map i) ∧
      (∀ i, map.length ≤ i → i < map'.length → pageAt map' i = BlockPage.empty) := by
  rw [grow_eq_append map required_blocks (by omega)]
  set N := nextPowerOfTwo (map.length * BlockPage.BLOCK_COUNT / (8 * 0x1000) +
      align_up_div required_blocks (8 * 0x1000)) * (0x1000 / 32) with hN
  have hlt : map.length < N := grow_new_len_lt map.length required_blocks h
  have hlen : (map ++ List.replicate (N - map.length) BlockPage.empty).length = N := by
    simp only [List.length_append, List.length_replicate]
    omega
  refine ⟨_, rfl, ?_, ?_, ?_⟩
  · rw [hlen]
    exact hlt
  · intro i hi
    unfold pageAt
    rw [List.getD_append _ _ _ _ hi]
  · intro i hi₁ hi₂
    rw [hlen] at hi₂
    unfold pageAt
    rw [List.getD_append_right _ _ _ _ hi₁]
    have hrep : i - map.length < N - map.length := by omega
    rw [List.getD_eq_getElem _ _ (by simpa using hrep)]
    exact List.getElem_replicate ..

/-- Witness for C7 growing an empty map by one block. -/
theorem c7_grow_preserves_and_extends_witness :
    (1 : Nat) ≤ 1 ∧
      ∃ map', grow [] 1 = some map' ∧
        List.length ([] : List BlockPage) < map'.length ∧
        (∀ i, i < List.length ([] : List BlockPage) →
          pageAt map' i = pageAt [] i) ∧
        (∀ i, List.length ([] : List BlockPage) ≤ i → i < map'.length →
          pageAt map' i = BlockPage.empty) :=
  ⟨le_refl 1, c7_grow_preserves_and_extends [] 1 (le_refl 1)⟩

/-- C7 counterexample: the claim quantifies over every `required_blocks`,
but `grow(0)` trips the source's `assert!(required_blocks > 0)` and
panics, producing no longer map at all. -/
theorem c7_grow_counterexample : grow [] 0 = none := rfl

/-! ## Claim C8 -/

/-- Clearing a block page always yields an empty page, so the assertion
that follows `set_empty()` in `identity_map` can never fail. -/
theorem set_empty_is_empty (bp : BlockPage) : bp.set_empty.is_empty = true := by
  simp only [BlockPage.set_empty, BlockPage.is_empty, List.all_map, List.all_eq_true]
  intro x hx
  simp

/-- C8 (code bug): the claim (and the assertion message in the source)
says `identity_map` must fail fatally when the targeted BlockPage holds a
set occupancy bit; but the source calls `set_empty()` on the entry before
asserting `is_empty()`, so the assertion always passes: for every in-range
frame index — whatever the page's prior contents — the call succeeds and
forces the page to full. -/
theorem c8_identity_map_never_fatal (map : List BlockPage) (frame_index : Nat)
    (do_map : Bool) (h : frame_index < map.length) :
    identity_map map frame_index do_map =
      some (map.set frame_index (pageAt map frame_index).set_empty.set_full,
        if do_map then [frame_index] else []) := by
  unfold identity_map
  rw [if_neg (by omega)]
  simp only [dif_pos h, set_empty_is_empty, if_pos]
  unfold pageAt
  rw [List.getD_eq_getElem _ _ h]
  rfl

/-- Witness for C8 at a page whose first occupancy bit is set: the call
returns normally (the claimed fatal assertion does not fire) and the page
is clobbered to full. -/
theorem c8_identity_map_never_fatal_witness :
    (0 : Nat) < 1 ∧
      identity_map [⟨[1, 0, 0, 0]⟩] 0 false =
        some ([⟨[1, 0, 0, 0]⟩].set 0 (pageAt [⟨[1, 0, 0, 0]⟩] 0).set_empty.set_full,
          if false then [0] else []) :=
  ⟨Nat.zero_lt_one, c8_identity_map_never_fatal [⟨[1, 0, 0, 0]⟩] 0 false Nat.zero_lt_one⟩

/-! ## Claim C5 -/

/-- Every map event emitted by the marking loop of `alloc_to` targets
`frames.start()` — the first frame of the run. -/
theorem allocToMarkPages_events_eq (frame_start : Nat) :
    ∀ (pages : List BlockPage) (map_index take_count : Nat),
      ∀ e ∈ (allocToMarkPages frame_start pages map_index take_count).2,
        e.2 = frame_start := by
  intro pages
  induction pages with
  | nil =>
    intro map_index take_count e he
    cases take_count <;> simp [allocToMarkPages] at he
  | cons bp rest ih =>
    intro map_index take_count e he
    cases take_count with
    | zero => simp [allocToMarkPages] at he
    | succ tc =>
      simp only [allocToMarkPages, List.mem_cons] at he
      rcases he with he | he
      · rw [he]
      · exact ih (map_index + 1) tc e he

/-- C5 (code bug): the claim says `alloc_to(frame_run)` maps the i-th
virtual page of the returned region to the i-th frame of the input run;
but the kernel source maps every page of the region to `frames.start()`
(the iterator sits behind an immutable borrow and never advances), so
every map event targets the first frame — demonstrated concretely: for a
2-frame run starting at frame 5 over two empty pages, the events are
`(page 0, frame 5), (page 1, frame 5)` where the claim requires
`(page 0, frame 5), (page 1, frame 6)`.  (The libkernel twin uses
`frames.next()` and does map frames in order.) -/
theorem c5_alloc_to_maps_all_pages_to_first_frame :
    (∀ fuel map frame_start frame_len p map' events,
      alloc_to fuel map frame_start frame_len = some (p, map', events) →
      ∀ e ∈ events, e.2 = frame_start) ∧
    alloc_to 1 [BlockPage.empty, BlockPage.empty] 5 2 =
      some (0, [BlockPage.empty.set_full, BlockPage.empty.set_full], [(0, 5), (1, 5)]) ∧
    [(0, 5), (1, 5)] ≠ [((0 : Nat), (5 : Nat)), (1, 6)] := by
  refine ⟨?_, by decide, by decide⟩
  intro fuel
  induction fuel with
  | zero => intro map frame_start frame_len p map' events h; exact absurd h (by simp [alloc_to])
  | succ n ih =>
    intro map frame_start frame_len p map' events h
    rw [alloc_to] at h
    split at h
    · split at h
      · exact absurd h (by simp)
      · exact ih _ _ _ _ _ _ h
    · obtain ⟨-, hrest⟩ := Prod.mk.injEq .. ▸ (Option.some.injEq .. ▸ h)
      obtain ⟨-, hev⟩ := Prod.mk.injEq .. ▸ hrest
      intro e he
      rw [← hev] at he
      exact allocToMarkPages_events_eq frame_start _ _ _ e he

/-- Witness for C5: the general half of the theorem applied to the
concrete run from its second half. -/
theorem c5_alloc_to_maps_all_pages_to_first_frame_witness :
    ∀ e ∈ [((0 : Nat), (5 : Nat)), (1, 5)], e.2 = 5 :=
  c5_alloc_to_maps_all_pages_to_first_frame.1 1 [BlockPage.empty, BlockPage.empty]
    5 2 0 [BlockPage.empty.set_full, BlockPage.empty.set_full] [(0, 5), (1, 5)]
    c5_alloc_to_maps_all_pages_to_first_frame.2.1

/-! ## Bit-level helper lemmas for the block allocator -/

theorem BLOCK_COUNT_eq : BlockPage.BLOCK_COUNT = 256 := rfl

theorem SECTION_LEN_eq : BlockPage.SECTION_LEN = 64 := rfl

theorem SECTION_COUNT_eq : BlockPage.SECTION_COUNT = 4 := rfl

/-- The mask produced by `calculate_bit_fields` covers exactly the bit
positions `off ≤ t < off + cnt` (for a nonzero count). -/
theorem u64BitMask_testBit (cnt off t : Nat) (h : 1 ≤ cnt) :
    (U64_BIT_MASKS (cnt - 1) <<< off).testBit t = decide (off ≤ t ∧ t < off + cnt) := by
  rw [U64_BIT_MASKS]
  have hc : cnt - 1 + 1 = cnt := by omega
  rw [hc, Nat.testBit_shiftLeft, Nat.testBit_two_pow_sub_one]
  by_cases h1 : off ≤ t <;> by_cases h2 : t < off + cnt <;>
    simp [h1, h2, Nat.le_of_lt] <;> omega

theorem and_eq_zero_iff_testBit (x y : Nat) :
    x &&& y = 0 ↔ ∀ i, y.testBit i = true → x.testBit i = false := by
  constructor
  · intro h i hy
    have := congrArg (fun n => n.testBit i) h
    simp only [Nat.testBit_land, Nat.zero_testBit] at this
    rcases Bool.and_eq_false_iff.mp this with hx | hy'
    · exact hx
    · rw [hy] at hy'
      cases hy'
  · intro h
    apply Nat.eq_of_testBit_eq
    intro i
    rw [Nat.testBit_land, Nat.zero_testBit]
    by_cases hy : y.testBit i = true
    · rw [h i hy, Bool.false_and]
    · rw [Bool.not_eq_true] at hy
      rw [hy, Bool.and_false]

theorem and_eq_self_iff_testBit (x y : Nat) :
    x &&& y = y ↔ ∀ i, y.testBit i = true → x.testBit i = true := by
  constructor
  · intro h i hy
    have := congrArg (fun n => n.testBit i) h
    simp only [Nat.testBit_land] at this
    rw [hy, Bool.and_true] at this
    exact this
  · intro h
    apply Nat.eq_of_testBit_eq
    intro i
    rw [Nat.testBit_land]
    by_cases hy : y.testBit i = true
    · rw [h i hy, hy, Bool.true_and]
    · rw [Bool.not_eq_true] at hy
      rw [hy, Bool.and_false]

theorem xor_subset_testBit (x y : Nat) (hsub : ∀ i, y.testBit i = true → x.testBit i = true)
    (i : Nat) : (x ^^^ y).testBit i = (x.testBit i && !y.testBit i) := by
  rw [Nat.testBit_xor]
  by_cases hy : y.testBit i = true
  · rw [hy, hsub i hy]
    rfl
  · rw [Bool.not_eq_true] at hy
    rw [hy]
    cases x.testBit i <;> rfl

/-! ## Search invariants of `alloc` -/

/-- One bit step of the search preserves the run invariants: the run never
exceeds the target, never exceeds the cursor, and an open run always
started at a block index meeting the alignment check. -/
theorem allocScanStep_inv (size align idx run : Nat) (h1 : run < size)
    (h2 : run ≤ idx) (h3 : 0 < run → (idx - run) % align = 0) (b : Bool) :
    (if b then 0 else if run > 0 || idx % align == 0 then run + 1 else run) ≤ idx + 1 ∧
    (if b then 0 else if run > 0 || idx % align == 0 then run + 1 else run) ≤ size ∧
    (0 < (if b then 0 else if run > 0 || idx % align == 0 then run + 1 else run) →
      ((idx + 1) - (if b then 0 else if run > 0 || idx % align == 0 then run + 1 else run))
        % align = 0) := by
  cases b with
  | true => simp
  | false =>
    simp only [if_false, Bool.false_eq_true, if_neg Bool.false_ne_true]
    by_cases hc : (run > 0 || idx % align == 0) = true
    · rw [if_pos hc]
      refine ⟨by omega, by omega, fun _ => ?_⟩
      have : idx + 1 - (run + 1) = idx - run := by omega
      rw [this]
      rcases Nat.eq_zero_or_pos run with hr | hr
      · subst hr
        rcases Bool.or_eq_true_iff.mp hc with hc' | hc'
        · simp at hc'
        · rw [Nat.sub_zero]
          simpa using hc'
      · exact h3 hr
    · rw [if_neg hc]
      refine ⟨by omega, by omega, fun hr => ?_⟩
      exfalso
      apply hc
      rw [Bool.or_eq_true_iff]
      left
      simpa using hr
    
/-- Invariants of the innermost (bit-granularity) search loop. -/
theorem allocScanBits_inv (size align sec : Nat) (hsize : 1 ≤ size) :
    ∀ (shifts : List Nat) (idx run : Nat), run < size → run ≤ idx →
      (0 < run → (idx - run) % align = 0) →
      (∀ i r, allocScanBits size align sec shifts idx run = .found i r →
        r = size ∧ size ≤ i ∧ (i - size) % align = 0 ∧ i ≤ idx + shifts.length) ∧
      (∀ i r, allocScanBits size align sec shifts idx run = .cont i r →
        r < size ∧ r ≤ i ∧ (0 < r → (i - r) % align = 0) ∧ i = idx + shifts.length) := by
  intro shifts
  induction shifts with
  | nil =>
    intro idx run h1 h2 h3
    constructor
    · intro i r h
      simp [allocScanBits] at h
    · intro i r h
      rw [allocScanBits] at h
      cases h
      exact ⟨h1, h2, h3, by simp⟩
  | cons shift rest ih =>
    intro idx run h1 h2 h3
    obtain ⟨hs1, hs2, hs3⟩ := allocScanStep_inv size align idx run h1 h2 h3
      (sec &&& (1 <<< shift) != 0)
    set run' := if (sec &&& (1 <<< shift) != 0 : Bool) then 0
      else if run > 0 || idx % align == 0 then run + 1 else run with hrun'
    by_cases hf : run' = size
    · constructor
      · intro i r h
        rw [allocScanBits] at h
        rw [← hrun', if_pos hf] at h
        cases h
        refine ⟨hf, by omega, ?_, by simp only [List.length_cons]; omega⟩
        have := hs3 (by omega)
        rw [hf] at this
        exact this
      · intro i r h
        rw [allocScanBits] at h
        rw [← hrun', if_pos hf] at h
        cases h
    · have hrec := ih (idx + 1) run' (by omega) hs1 hs3
      constructor
      · intro i r h
        rw [allocScanBits] at h
        rw [← hrun', if_neg hf] at h
        obtain ⟨ha, hb, hc, hd⟩ := hrec.1 i r h
        exact ⟨ha, hb, hc, by simp only [List.length_cons]; omega⟩
      · intro i r h
        rw [allocScanBits] at h
        rw [← hrun', if_neg hf] at h
        obtain ⟨ha, hb, hc, hd⟩ := hrec.2 i r h
        exact ⟨ha, hb, hc, by simp only [List.length_cons] at hd ⊢; omega⟩

/-- Invariants of the section-granularity search loop. -/
theorem allocScanSections_inv (size align : Nat) (hsize : 1 ≤ size) :
    ∀ (secs : List Nat) (idx run : Nat), run < size → run ≤ idx →
      (0 < run → (idx - run) % align = 0) →
      (∀ i r, allocScanSections size align secs idx run = .found i r →
        r = size ∧ size ≤ i ∧ (i - size) % align = 0 ∧ i ≤ idx + 64 * secs.length) ∧
      (∀ i r, allocScanSections size align secs idx run = .cont i r →
        r < size ∧ r ≤ i ∧ (0 < r → (i - r) % align = 0) ∧ i = idx + 64 * secs.length) := by
  intro secs
  induction secs with
  | nil =>
    intro idx run h1 h2 h3
    constructor
    · intro i r h
      simp [allocScanSections] at h
    · intro i r h
      rw [allocScanSections] at h
      cases h
      exact ⟨h1, h2, h3, by simp⟩
  | cons sec rest ih =>
    intro idx run h1 h2 h3
    by_cases hfull : sec = U64_MAX
    · have heq : allocScanSections size align (sec :: rest) idx run =
          allocScanSections size align rest (idx + BlockPage.SECTION_LEN) 0 := by
        rw [allocScanSections, if_pos hfull]
      rw [SECTION_LEN_eq] at heq
      have hrec := ih (idx + 64) 0 (by omega) (by omega) (by omega)
      constructor
      · intro i r h
        rw [heq] at h
        obtain ⟨ha, hb, hc, hd⟩ := hrec.1 i r h
        exact ⟨ha, hb, hc, by simp only [List.length_cons]; omega⟩
      · intro i r h
        rw [heq] at h
        obtain ⟨ha, hb, hc, hd⟩ := hrec.2 i r h
        exact ⟨ha, hb, hc, by simp only [List.length_cons]; omega⟩
    · have heq : allocScanSections size align (sec :: rest) idx run =
          match allocScanBits size align sec (List.range 64) idx run with
          | .found i r => .found i r
          | .cont i r => allocScanSections size align rest i r := by
        rw [allocScanSections, if_neg hfull]
      have hbits := allocScanBits_inv size align sec hsize (List.range 64) idx run h1 h2 h3
      rcases hb : allocScanBits size align sec (List.range 64) idx run with ⟨i', r'⟩ | ⟨i', r'⟩
      · obtain ⟨ha', hb', hc', hd'⟩ := hbits.1 i' r' hb
        rw [List.length_range] at hd'
        constructor
        · intro i r h
          rw [heq, hb] at h
          cases h
          exact ⟨ha', hb', hc', by simp only [List.length_cons]; omega⟩
        · intro i r h
          rw [heq, hb] at h
          cases h
      · obtain ⟨ha', hb', hc', hd'⟩ := hbits.2 i' r' hb
        rw [List.length_range] at hd'
        have hrec := ih i' r' ha' hb' hc'
        constructor
        · intro i r h
          rw [heq, hb] at h
          obtain ⟨ha, hc, hd, he⟩ := hrec.1 i r h
          exact ⟨ha, hc, hd, by simp only [List.length_cons]; omega⟩
        · intro i r h
          rw [heq, hb] at h
          obtain ⟨ha, hc, hd, he⟩ := hrec.2 i r h
          exact ⟨ha, hc, hd, by simp only [List.length_cons]; omega⟩

/-- Invariants of the page-granularity search loop: when the search breaks
with a completed run, the run equals the requested size, starts at a block
index meeting the alignment check, and lies within the map; when the scan
falls off the map, the trailing run is still short of the target and the
cursor sits exactly at the end of the map. -/
theorem allocScanPages_inv (size align : Nat) (hsize : 1 ≤ size) :
    ∀ (pages : List BlockPage) (idx run : Nat),
      (∀ bp ∈ pages, bp.sections.length = BlockPage.SECTION_COUNT) →
      run < size → run ≤ idx → (0 < run → (idx - run) % align = 0) →
      (∀ i r, allocScanPages size align pages idx run = .found i r →
        r = size ∧ size ≤ i ∧ (i - size) % align = 0 ∧ i ≤ idx + 256 * pages.length) ∧
      (∀ i r, allocScanPages size align pages idx run = .cont i r →
        r < size ∧ r ≤ i ∧ (0 < r → (i - r) % align = 0) ∧ i = idx + 256 * pages.length) := by
  intro pages
  induction pages with
  | nil =>
    intro idx run hwf h1 h2 h3
    constructor
    · intro i r h
      simp [allocScanPages] at h
    · intro i r h
      rw [allocScanPages] at h
      cases h
      exact ⟨h1, h2, h3, by simp⟩
  | cons bp rest ih =>
    intro idx run hwf h1 h2 h3
    have hwfbp : bp.sections.length = 4 := hwf bp (List.mem_cons_self ..)
    have hwfrest : ∀ p ∈ rest, p.sections.length = BlockPage.SECTION_COUNT :=
      fun p hp => hwf p (List.mem_cons_of_mem _ hp)
    by_cases hfull : bp.is_full
    · have heq : allocScanPages size align (bp :: rest) idx run =
          allocScanPages size align rest (idx + BlockPage.BLOCK_COUNT) 0 := by
        rw [allocScanPages, if_pos hfull]
      rw [BLOCK_COUNT_eq] at heq
      have hrec := ih (idx + 256) 0 hwfrest (by omega) (by omega) (by omega)
      constructor
      · intro i r h
        rw [heq] at h
        obtain ⟨ha, hb, hc, hd⟩ := hrec.1 i r h
        exact ⟨ha, hb, hc, by simp only [List.length_cons]; omega⟩
      · intro i r h
        rw [heq] at h
        obtain ⟨ha, hb, hc, hd⟩ := hrec.2 i r h
        exact ⟨ha, hb, hc, by simp only [List.length_cons]; omega⟩
    · have heq : allocScanPages size align (bp :: rest) idx run =
          match allocScanSections size align bp.sections idx run with
          | .found i r => .found i r
          | .cont i r => allocScanPages size align rest i r := by
        rw [allocScanPages, if_neg hfull]
      have hsecs := allocScanSections_inv size align hsize bp.sections idx run h1 h2 h3
      rcases hb : allocScanSections size align bp.sections idx run with ⟨i', r'⟩ | ⟨i', r'⟩
      · obtain ⟨ha', hb', hc', hd'⟩ := hsecs.1 i' r' hb
        rw [hwfbp] at hd'
        constructor
        · intro i r h
          rw [heq, hb] at h
          cases h
          exact ⟨ha', hb', hc', by simp only [List.length_cons]; omega⟩
        · intro i r h
          rw [heq, hb] at h
          cases h
      · obtain ⟨ha', hb', hc', hd'⟩ := hsecs.2 i' r' hb
        rw [hwfbp] at hd'
        have hrec := ih i' r' hwfrest ha' hb' hc'
        constructor
        · intro i r h
          rw [heq, hb] at h
          obtain ⟨ha, hc, hd, he⟩ := hrec.1 i r h
          exact ⟨ha, hc, hd, by simp only [List.length_cons]; omega⟩
        · intro i r h
          rw [heq, hb] at h
          obtain ⟨ha, hc, hd, he⟩ := hrec.2 i r h
          exact ⟨ha, hc, hd, by simp only [List.length_cons]; omega⟩

/-! ## Marking-pass invariants of `alloc` -/

/-- Effect of the marking pass of `alloc` on one section.  The invariants
tie the loop state to the requested block range `[s, e)`: the cursor is
clamped into the range restricted to the blocks already traversed, and the
skip counter counts the sections of the first page that precede the range.
On success the section gains exactly the covered bits of this section, all
of which were clear (the source's assertion), and the recorded
`SectionState` is the before/after nonzero-ness. -/
theorem allocMarkSection_spec (s e mi si sec bi skip : Nat) (hse : s ≤ e)
    (hbi : bi = max s (min e (mi * 256 + si * 64)))
    (hskip : skip = s / 64 - (4 * mi + si)) :
    ∀ sec' st bi' skip',
      allocMarkSection mi si e sec bi skip = some (sec', st, bi', skip') →
        bi' = max s (min e (mi * 256 + (si + 1) * 64)) ∧
        skip' = s / 64 - (4 * mi + (si + 1)) ∧
        st = ⟨decide (0 < sec), decide (0 < sec')⟩ ∧
        (∀ t, t < 64 →
          sec'.testBit t =
            (sec.testBit t ||
              decide (s ≤ mi * 256 + si * 64 + t ∧ mi * 256 + si * 64 + t < e))) ∧
        (∀ t, t < 64 → s ≤ mi * 256 + si * 64 + t → mi * 256 + si * 64 + t < e →
          sec.testBit t = false) := by
  intro sec' st bi' skip' h
  simp only [allocMarkSection] at h
  by_cases h0 : 0 < skip
  · rw [if_pos h0] at h
    simp only [Option.some.injEq, Prod.mk.injEq] at h
    obtain ⟨h1, h2, h3, h4⟩ := h
    have hs64 : mi * 256 + si * 64 + 64 ≤ s := by omega
    refine ⟨by omega, by omega, by rw [← h1, ← h2], ?_, ?_⟩
    · intro t ht
      rw [← h1]
      have : ¬ (s ≤ mi * 256 + si * 64 + t ∧ mi * 256 + si * 64 + t < e) := by omega
      simp [this]
    · intro t ht hta htb
      omega
  · have hsk0 : skip = 0 := by omega
    have hsle : s < mi * 256 + si * 64 + 64 := by omega
    by_cases h2 : bi < e
    · rw [if_neg h0, if_pos h2] at h
      have htr : mi * 256 + si * 64 < e := by omega
      have hbitr : bi = max s (mi * 256 + si * 64) := by omega
      simp only [calculate_bit_fields, BLOCK_COUNT_eq, SECTION_LEN_eq] at h
      set tr := mi * 256 + si * 64 with htrdef
      set off := bi - tr with hoffdef
      have hoff : off < 64 := by omega
      set cnt := min 64 (e - tr) - off with hcntdef
      have hcnt : 1 ≤ cnt := by omega
      have hmask : ∀ t, (U64_BIT_MASKS (cnt - 1) <<< off).testBit t =
          decide (off ≤ t ∧ t < off + cnt) :=
        fun t => u64BitMask_testBit cnt off t hcnt
      have hcover : ∀ t, t < 64 →
          ((off ≤ t ∧ t < off + cnt) ↔ (s ≤ tr + t ∧ tr + t < e)) := by
        intro t ht
        omega
      split at h
      · next hassert =>
        simp only [Option.some.injEq, Prod.mk.injEq] at h
        obtain ⟨h1, h3, h4, h5⟩ := h
        have hclear : ∀ t, t < 64 → s ≤ tr + t → tr + t < e → sec.testBit t = false := by
          intro t ht hta htb
          exact (and_eq_zero_iff_testBit sec _).mp hassert t
            (by rw [hmask t]; exact decide_eq_true ((hcover t ht).mpr ⟨hta, htb⟩))
        refine ⟨by omega, by omega, by rw [← h3, ← h1], ?_, hclear⟩
        intro t ht
        rw [← h1, Nat.testBit_lor, hmask t]
        congr 1
        rw [decide_eq_decide]
        exact hcover t ht
      · exact absurd h (by simp)
    · rw [if_neg h0, if_neg h2] at h
      simp only [Option.some.injEq, Prod.mk.injEq] at h
      obtain ⟨h1, h3, h4, h5⟩ := h
      have hbe : bi = e := by omega
      have hnone : ∀ t, t < 64 →
          ¬ (s ≤ mi * 256 + si * 64 + t ∧ mi * 256 + si * 64 + t < e) := by
        intro t ht
        omega
      refine ⟨by omega, by omega, by rw [← h3, ← h1], ?_, ?_⟩
      · intro t ht
        rw [← h1]
        simp [hnone t ht]
      · intro t ht hta htb
        exact absurd ⟨hta, htb⟩ (hnone t ht)

/-- Effect of the marking pass of `alloc` on the section list of one block
page, threading the cursor and skip counter; the recorded page state is
the pointwise before/after nonzero-ness of the sections. -/
theorem allocMarkSections_spec (s e mi : Nat) (hse : s ≤ e) :
    ∀ (secs : List Nat) (si bi skip : Nat),
      bi = max s (min e (mi * 256 + si * 64)) →
      skip = s / 64 - (4 * mi + si) →
      ∀ secs' states bi' skip',
        allocMarkSections mi e secs si bi skip = some (secs', states, bi', skip') →
          secs'.length = secs.length ∧
          states = List.zipWith
            (fun a b => SectionState.mk (decide (0 < a)) (decide (0 < b))) secs secs' ∧
          bi' = max s (min e (mi * 256 + (si + secs.length) * 64)) ∧
          skip' = s / 64 - (4 * mi + si + secs.length) ∧
          (∀ j t, j < secs.length → t < 64 →
            (secs'.getD j 0).testBit t =
              ((secs.getD j 0).testBit t ||
                decide (s ≤ mi * 256 + (si + j) * 64 + t ∧
                  mi * 256 + (si + j) * 64 + t < e))) ∧
          (∀ j t, j < secs.length → t < 64 →
            s ≤ mi * 256 + (si + j) * 64 + t → mi * 256 + (si + j) * 64 + t < e →
            (secs.getD j 0).testBit t = false) := by
  intro secs
  induction secs with
  | nil =>
    intro si bi skip hbi hskip secs' states bi' skip' h
    rw [allocMarkSections] at h
    simp only [Option.some.injEq, Prod.mk.injEq] at h
    obtain ⟨h1, h2, h3, h4⟩ := h
    subst h1 h2
    refine ⟨rfl, rfl, by simp only [List.length_nil, Nat.add_zero]; omega,
      by simp only [List.length_nil, Nat.add_zero]; omega, ?_, ?_⟩
    · intro j t hj
      simp at hj
    · intro j t hj
      simp at hj
  | cons sec rest ih =>
    intro si bi skip hbi hskip secs' states bi' skip' h
    rw [allocMarkSections] at h
    rcases hsec : allocMarkSection mi si e sec bi skip with - | ⟨sec₀, st, bi₀, skip₀⟩
    · rw [hsec] at h
      exact Option.noConfusion h
    · rw [hsec] at h
      dsimp only at h
      obtain ⟨hbi₀, hskip₀, hst, hbits₀, hclear₀⟩ :=
        allocMarkSection_spec s e mi si sec bi skip hse hbi hskip sec₀ st bi₀ skip₀ hsec
      rcases hrest : allocMarkSections mi e rest (si + 1) bi₀ skip₀ with
        - | ⟨rest', states₀, bi₁, skip₁⟩
      · rw [hrest] at h
        exact Option.noConfusion h
      · rw [hrest] at h
        simp only [Option.some.injEq, Prod.mk.injEq] at h
        obtain ⟨h1, h2, h3, h4⟩ := h
        obtain ⟨ihl, ihz, ihbi, ihskip, ihbits, ihclear⟩ :=
          ih (si + 1) bi₀ skip₀ hbi₀ (by omega) rest' states₀ bi₁ skip₁ hrest
        subst h1 h2
        refine ⟨by simp [ihl], ?_, ?_, ?_, ?_, ?_⟩
        · rw [List.zipWith_cons_cons, ihz, hst]
        · rw [← h3, ihbi]
          have : si + 1 + rest.length = si + (rest.length + 1) := by omega
          rw [this]
          simp
        · rw [← h4, ihskip]
          simp only [List.length_cons]
          omega
        · intro j t hj ht
          cases j with
          | zero =>
            simp only [List.getD_cons_zero]
            have : si + 0 = si := rfl
            rw [this]
            exact hbits₀ t ht
          | succ j' =>
            simp only [List.getD_cons_succ]
            have hpos : si + (j' + 1) = si + 1 + j' := by omega
            rw [hpos]
            exact ihbits j' t (by simpa using hj) ht
        · intro j t hj ht hta htb
          cases j with
          | zero =>
            simp only [List.getD_cons_zero]
            exact hclear₀ t ht (by simpa using hta) (by simpa using htb)
          | succ j' =>
            simp only [List.getD_cons_succ]
            have hpos : si + (j' + 1) = si + 1 + j' := by omega
            rw [hpos] at hta htb
            exact ihclear j' t (by simpa using hj) ht hta htb

/-! ## The `should_alloc` / `should_dealloc` page-transition bridge -/

theorem all_isalloc_or_isempty (states : List SectionState) :
    states.all (fun st => st.is_alloc || st.is_empty) =
      states.all (fun st => !st.had_bits) := by
  induction states with
  | nil => rfl
  | cons st sts ih =>
    rw [List.all_cons, List.all_cons, ih]
    rcases st with ⟨h, hs⟩
    cases h <;> cases hs <;> rfl

theorem all_isdealloc_or_isempty (states : List SectionState) :
    states.all (fun st => st.is_dealloc || st.is_empty) =
      states.all (fun st => !st.has_bits) := by
  induction states with
  | nil => rfl
  | cons st sts ih =>
    rw [List.all_cons, List.all_cons, ih]
    rcases st with ⟨h, hs⟩
    cases h <;> cases hs <;> rfl

theorem any_isalloc_and_all (states : List SectionState) :
    (states.any (fun st => st.is_alloc) && states.all (fun st => !st.had_bits)) =
      (states.any (fun st => st.has_bits) && states.all (fun st => !st.had_bits)) := by
  induction states with
  | nil => rfl
  | cons st sts ih =>
    simp only [List.any_cons, List.all_cons]
    rcases st with ⟨h, hs⟩
    cases h <;> cases hs <;>
      simp only [SectionState.is_alloc, Bool.not_false, Bool.not_true, Bool.true_and,
        Bool.false_and, Bool.and_false, Bool.false_or, Bool.true_or, Bool.and_true] <;>
      first
      | rfl
      | exact ih

theorem any_isdealloc_and_all (states : List SectionState) :
    (states.any (fun st => st.is_dealloc) && states.all (fun st => !st.has_bits)) =
      (states.any (fun st => st.had_bits) && states.all (fun st => !st.has_bits)) := by
  induction states with
  | nil => rfl
  | cons st sts ih =>
    simp only [List.any_cons, List.all_cons]
    rcases st with ⟨h, hs⟩
    cases h <;> cases hs <;>
      simp only [SectionState.is_dealloc, Bool.not_false, Bool.not_true, Bool.true_and,
        Bool.false_and, Bool.and_false, Bool.false_or, Bool.true_or, Bool.and_true] <;>
      first
      | rfl
      | exact ih

theorem should_alloc_eq_all_any (states : List SectionState) :
    SectionState.should_alloc states =
      (states.all (fun st => !st.had_bits) && states.any (fun st => st.has_bits)) := by
  rw [SectionState.should_alloc, all_isalloc_or_isempty, any_isalloc_and_all,
    Bool.and_comm]

theorem should_dealloc_eq_all_any (states : List SectionState) :
    SectionState.should_dealloc states =
      (states.all (fun st => !st.has_bits) && states.any (fun st => st.had_bits)) := by
  rw [SectionState.should_dealloc, all_isdealloc_or_isempty, any_isdealloc_and_all,
    Bool.and_comm]

theorem zipWith_all_fst (secs secs' : List Nat) (hlen : secs'.length = secs.length) :
    (List.zipWith (fun a b => SectionState.mk (decide (0 < a)) (decide (0 < b)))
        secs secs').all (fun st => !st.had_bits) =
      BlockPage.is_empty ⟨secs⟩ := by
  rw [BlockPage.is_empty]
  induction secs generalizing secs' with
  | nil => rfl
  | cons a as ih =>
    rcases secs' with - | ⟨b, bs⟩
    · simp at hlen
    · rw [List.zipWith_cons_cons, List.all_cons, List.all_cons,
        ih bs (by simpa using hlen)]
      congr 1
      rw [← decide_not, decide_eq_decide]
      omega

theorem zipWith_all_snd (secs secs' : List Nat) (hlen : secs'.length = secs.length) :
    (List.zipWith (fun a b => SectionState.mk (decide (0 < a)) (decide (0 < b)))
        secs secs').all (fun st => !st.has_bits) =
      BlockPage.is_empty ⟨secs'⟩ := by
  rw [BlockPage.is_empty]
  induction secs generalizing secs' with
  | nil =>
    rcases secs' with - | ⟨b, bs⟩
    · rfl
    · simp at hlen
  | cons a as ih =>
    rcases secs' with - | ⟨b, bs⟩
    · simp at hlen
    · rw [List.zipWith_cons_cons, List.all_cons, List.all_cons,
        ih bs (by simpa using hlen)]
      congr 1
      rw [← decide_not, decide_eq_decide]
      omega

theorem zipWith_any_snd (secs secs' : List Nat) (hlen : secs'.length = secs.length) :
    (List.zipWith (fun a b => SectionState.mk (decide (0 < a)) (decide (0 < b)))
        secs secs').any (fun st => st.has_bits) =
      !BlockPage.is_empty ⟨secs'⟩ := by
  rw [← zipWith_all_snd secs secs' hlen, List.any_eq_not_all_not]

theorem zipWith_any_fst (secs secs' : List Nat) (hlen : secs'.length = secs.length) :
    (List.zipWith (fun a b => SectionState.mk (decide (0 < a)) (decide (0 < b)))
        secs secs').any (fun st => st.had_bits) =
      !BlockPage.is_empty ⟨secs⟩ := by
  rw [← zipWith_all_fst secs secs' hlen, List.any_eq_not_all_not]

/-- `should_alloc` of the recorded page state is exactly the
empty-before-and-nonempty-after transition of the block page. -/
theorem should_alloc_zipWith (secs secs' : List Nat) (hlen : secs'.length = secs.length) :
    SectionState.should_alloc
        (List.zipWith (fun a b => SectionState.mk (decide (0 < a)) (decide (0 < b)))
          secs secs') =
      (BlockPage.is_empty ⟨secs⟩ && !BlockPage.is_empty ⟨secs'⟩) := by
  rw [should_alloc_eq_all_any, zipWith_all_fst secs secs' hlen,
    zipWith_any_snd secs secs' hlen]

/-- `should_dealloc` of the recorded page state is exactly the
nonempty-before-and-empty-after transition of the block page. -/
theorem should_dealloc_zipWith (secs secs' : List Nat) (hlen : secs'.length = secs.length) :
    SectionState.should_dealloc
        (List.zipWith (fun a b => SectionState.mk (decide (0 < a)) (decide (0 < b)))
          secs secs') =
      (BlockPage.is_empty ⟨secs'⟩ && !BlockPage.is_empty ⟨secs⟩) := by
  rw [should_dealloc_eq_all_any, zipWith_all_snd secs secs' hlen,
    zipWith_any_fst secs secs' hlen]

/-- Effect of the page loop of the marking pass of `alloc` on the window
of visited pages: lengths are preserved, pages past the take window are
untouched, the visited pages gain exactly the covered bits of `[s, e)`
(all previously clear), and an alloc event is recorded exactly for the
visited pages that transition from empty to nonempty. -/
theorem allocMarkPages_spec (s e : Nat) (hse : s ≤ e) :
    ∀ (pages : List BlockPage) (mi take bi skip : Nat),
      (∀ bp ∈ pages, bp.sections.length = BlockPage.SECTION_COUNT) →
      bi = max s (min e (mi * 256)) →
      skip = s / 64 - 4 * mi →
      ∀ pages' events bi' skip',
        allocMarkPages e pages mi take bi skip = some (pages', events, bi', skip') →
          pages'.length = pages.length ∧
          (∀ j, take ≤ j → pages'.getD j BlockPage.empty = pages.getD j BlockPage.empty) ∧
          (∀ j t, j < pages.length → t < 256 →
            sectionsTestBit (pages'.getD j BlockPage.empty).sections t =
              (sectionsTestBit (pages.getD j BlockPage.empty).sections t ||
                decide (j < take ∧ s ≤ (mi + j) * 256 + t ∧ (mi + j) * 256 + t < e))) ∧
          (∀ j t, j < pages.length → j < take → t < 256 →
            s ≤ (mi + j) * 256 + t → (mi + j) * 256 + t < e →
            sectionsTestBit (pages.getD j BlockPage.empty).sections t = false) ∧
          (∀ i, i ∈ events ↔
            (mi ≤ i ∧ i - mi < take ∧ i - mi < pages.length ∧
              (pages.getD (i - mi) BlockPage.empty).is_empty = true ∧
              (pages'.getD (i - mi) BlockPage.empty).is_empty = false)) := by
  intro pages
  induction pages with
  | nil =>
    intro mi take bi skip hwf hbi hskip pages' events bi' skip' h
    have hsome : pages' = [] ∧ events = [] := by
      cases take with
      | zero =>
        rw [allocMarkPages] at h
        simp only [Option.some.injEq, Prod.mk.injEq] at h
        exact ⟨h.1.symm, h.2.1.symm⟩
      | succ tc =>
        rw [allocMarkPages] at h
        simp only [Option.some.injEq, Prod.mk.injEq] at h
        exact ⟨h.1.symm, h.2.1.symm⟩
    obtain ⟨hp, hev⟩ := hsome
    subst hp hev
    refine ⟨rfl, fun j hj => rfl, ?_, ?_, ?_⟩
    · intro j t hj
      simp at hj
    · intro j t hj
      simp at hj
    · intro i
      simp
  | cons bp rest ih =>
    intro mi take bi skip hwf hbi hskip pages' events bi' skip' h
    have hwfbp : bp.sections.length = 4 := hwf bp (List.mem_cons_self ..)
    have hwfrest : ∀ p ∈ rest, p.sections.length = BlockPage.SECTION_COUNT :=
      fun p hp => hwf p (List.mem_cons_of_mem _ hp)
    cases take with
    | zero =>
      rw [allocMarkPages] at h
      simp only [Option.some.injEq, Prod.mk.injEq] at h
      obtain ⟨h1, h2, h3, h4⟩ := h
      subst h1 h2
      refine ⟨rfl, fun j hj => rfl, ?_, ?_, ?_⟩
      · intro j t hj ht
        simp
      · intro j t hj hj0
        simp at hj0
      · intro i
        simp
    | succ tc =>
      rw [allocMarkPages] at h
      rcases hsecs : allocMarkSections mi e bp.sections 0 bi skip with
        - | ⟨secs', states, bi₀, skip₀⟩
      · rw [hsecs] at h
        exact Option.noConfusion h
      · rw [hsecs] at h
        dsimp only at h
        obtain ⟨hsl, hsz, hsbi, hsskip, hsbits, hsclear⟩ :=
          allocMarkSections_spec s e mi hse bp.sections 0 bi skip
            (by omega) (by omega) secs' states bi₀ skip₀ hsecs
        rw [hwfbp] at hsbi hsskip
        have hbi₀ : bi₀ = max s (min e ((mi + 1) * 256)) := by
          rw [hsbi]
          have : mi * 256 + (0 + 4) * 64 = (mi + 1) * 256 := by ring
          rw [this]
        have hskip₀ : skip₀ = s / 64 - 4 * (mi + 1) := by
          rw [hsskip]
          omega
        rcases hrest : allocMarkPages e rest (mi + 1) tc bi₀ skip₀ with
          - | ⟨rest', evs, bi₁, skip₁⟩
        · rw [hrest] at h
          exact Option.noConfusion h
        · rw [hrest] at h
          simp only [Option.some.injEq, Prod.mk.injEq] at h
          obtain ⟨h1, h2, h3, h4⟩ := h
          obtain ⟨ihl, ihunch, ihbits, ihclear, ihev⟩ :=
            ih (mi + 1) tc bi₀ skip₀ hwfrest hbi₀ hskip₀ rest' evs bi₁ skip₁ hrest
          have hshould : SectionState.should_alloc states =
              (bp.is_empty && !BlockPage.is_empty ⟨secs'⟩) := by
            rw [hsz, should_alloc_zipWith bp.sections secs' hsl]
          subst h1 h2
          refine ⟨by simp [ihl], ?_, ?_, ?_, ?_⟩
          · intro j hj
            cases j with
            | zero => omega
            | succ j' =>
              simp only [List.getD_cons_succ]
              exact ihunch j' (by omega)
          · intro j t hj ht
            cases j with
            | zero =>
              simp only [List.getD_cons_zero]
              have hjt : t / 64 < 4 := by omega
              have hsb : sectionsTestBit secs' t = (( secs'.getD (t / 64) 0).testBit (t % 64)) := rfl
              rw [sectionsTestBit, sectionsTestBit]
              have := hsbits (t / 64) (t % 64) (by omega) (by omega)
              rw [this]
              congr 1
              rw [decide_eq_decide]
              have hpos : mi * 256 + (0 + t / 64) * 64 + t % 64 = mi * 256 + t := by omega
              rw [hpos]
              omega
            | succ j' =>
              simp only [List.getD_cons_succ]
              rw [ihbits j' t (by simpa using hj) ht]
              congr 1
              rw [decide_eq_decide]
              have : mi + 1 + j' = mi + (j' + 1) := by omega
              rw [this]
              omega
          · intro j t hj hjt ht hta htb
            cases j with
            | zero =>
              simp only [List.getD_cons_zero]
              rw [sectionsTestBit]
              have hpos : mi * 256 + (0 + t / 64) * 64 + t % 64 = mi * 256 + t := by omega
              exact hsclear (t / 64) (t % 64) (by omega) (by omega)
                (by rw [hpos]; simpa using hta) (by rw [hpos]; simpa using htb)
            | succ j' =>
              simp only [List.getD_cons_succ]
              have hpos : mi + 1 + j' = mi + (j' + 1) := by omega
              exact ihclear j' t (by simpa using hj) (by omega) ht
                (by rw [hpos]; exact hta) (by rw [hpos]; exact htb)
          · intro i
            have hevrange : ∀ k, k ∈ evs → mi + 1 ≤ k :=
              fun k hk => ((ihev k).mp hk).1
            rcases Nat.lt_trichotomy i mi with hcmp | hcmp | hcmp
            · constructor
              · intro hin
                exfalso
                by_cases hsa : SectionState.should_alloc states = true
                · rw [if_pos hsa] at hin
                  rcases List.mem_cons.mp hin with hreq | hreq
                  · omega
                  · have := hevrange i hreq
                    omega
                · rw [if_neg hsa] at hin
                  have := hevrange i hin
                  omega
              · intro hr
                omega
            · subst hcmp
              simp only [Nat.sub_self, List.getD_cons_zero]
              constructor
              · intro hin
                by_cases hsa : SectionState.should_alloc states = true
                · rw [hshould] at hsa
                  obtain ⟨he1, he2⟩ := Bool.and_eq_true_iff.mp hsa
                  refine ⟨le_refl i, by omega, by simp, he1, ?_⟩
                  simpa using he2
                · rw [if_neg hsa] at hin
                  have := hevrange i hin
                  omega
              · rintro ⟨-, -, -, hold, hnew⟩
                have hsa : SectionState.should_alloc states = true := by
                  rw [hshould, hold, hnew]
                  rfl
                rw [if_pos hsa]
                exact List.mem_cons_self ..
            · have hne : i ≠ mi := by omega
              have hstep : i ∈ (if SectionState.should_alloc states = true
                  then mi :: evs else evs) ↔ i ∈ evs := by
                split
                · rw [List.mem_cons]
                  constructor
                  · rintro (hq | hq)
                    · omega
                    · exact hq
                  · exact fun hq => Or.inr hq
                · exact Iff.rfl
              rw [hstep, ihev i]
              have hsub : i - mi = (i - (mi + 1)) + 1 := by omega
              rw [hsub]
              simp only [List.getD_cons_succ, List.length_cons]
              constructor
              · rintro ⟨ha, hb, hc, hd, hf⟩
                exact ⟨by omega, by omega, by omega, hd, hf⟩
              · rintro ⟨ha, hb, hc, hd, hf⟩
                exact ⟨by omega, by omega, by omega, hd, hf⟩

/-- Reading a dropped list with a default. -/
theorem getD_drop (l : List BlockPage) (n k : Nat) :
    (l.drop n).getD k BlockPage.empty = l.getD (n + k) BlockPage.empty := by
  by_cases h : n + k < l.length
  · have hk : k < (l.drop n).length := by
      rw [List.length_drop]
      omega
    rw [List.getD_eq_getElem _ _ hk, List.getD_eq_getElem _ _ h]
    exact List.getElem_drop l
  · rw [List.getD_eq_default _ _ (by rw [List.length_drop]; omega),
      List.getD_eq_default _ _ (by omega)]

/-- Effect of the whole marking pass of `alloc`: bits of `[s, e)` that fall
on existing pages become set (they were all clear — the source's
assertion), every other bit is untouched, and an alloc event is recorded
exactly for the pages whose bitmap goes empty → nonempty. -/
theorem allocMark_spec (map : List BlockPage) (s e : Nat)
    (hwf : MapWF map) (hse : s ≤ e) :
    ∀ map' events, allocMark map s e = some (map', events) →
      map'.length = map.length ∧
      (∀ b, mapTestBit map' b =
        (mapTestBit map b || decide (s ≤ b ∧ b < e ∧ b / 256 < map.length))) ∧
      (∀ b, s ≤ b → b < e → b / 256 < map.length → mapTestBit map b = false) ∧
      (∀ i, i ∈ events ↔
        ((pageAt map i).is_empty = true ∧ (pageAt map' i).is_empty = false)) := by
  intro map' events h
  simp only [allocMark, BLOCK_COUNT_eq, SECTION_LEN_eq, SECTION_COUNT_eq,
    align_down_div, align_up_div] at h
  rcases hmp : allocMarkPages e (map.drop (s / 256)) (s / 256)
      ((e + 256 - 1) / 256 - s / 256) s (s / 64 - s / 256 * 4) with
    - | ⟨pages', evs, bi₁, skip₁⟩
  · rw [hmp] at h
    exact Option.noConfusion h
  · rw [hmp] at h
    simp only [Option.some.injEq, Prod.mk.injEq] at h
    obtain ⟨hmap', hevents⟩ := h
    obtain ⟨hpl, hunch, hbits, hclear, hev⟩ :=
      allocMarkPages_spec s e hse (map.drop (s / 256)) (s / 256)
        ((e + 256 - 1) / 256 - s / 256) s (s / 64 - s / 256 * 4)
        (fun bp hbp => hwf bp (List.drop_subset _ _ hbp))
        (by omega) (by omega) pages' evs bi₁ skip₁ hmp
    rw [List.length_drop] at hpl
    subst hmap' hevents
    by_cases hsl : map.length ≤ s / 256
    · have hnil : map.drop (s / 256) = [] := List.drop_eq_nil_of_le hsl
      have hpnil : pages' = [] := List.length_eq_zero.mp (by omega)
      have hmapeq : map.take (s / 256) ++ pages' = map := by
        rw [hpnil, List.append_nil, List.take_all_of_le hsl]
      rw [hmapeq]
      refine ⟨rfl, ?_, ?_, ?_⟩
      · intro b
        have : ¬ (s ≤ b ∧ b < e ∧ b / 256 < map.length) := by omega
        simp [this]
      · intro b hb1 hb2 hb3
        omega
      · intro i
        simp only [hpnil] at hev
        rw [hev i]
        constructor
        · rintro ⟨-, -, hlt, -⟩
          rw [hnil] at hlt
          simp at hlt
        · rintro ⟨hemp, hnemp⟩
          rw [hemp] at hnemp
          cases hnemp
    · push_neg at hsl
      have hlen' : (map.take (s / 256) ++ pages').length = map.length := by
        rw [List.length_append, List.length_take]
        omega
      have hpage : ∀ p, pageAt (map.take (s / 256) ++ pages') p =
          if p < s / 256 then pageAt map p
          else pages'.getD (p - s / 256) BlockPage.empty := by
        intro p
        by_cases hp : p < s / 256
        · rw [if_pos hp]
          unfold pageAt
          rw [List.getD_append _ _ _ _ (by rw [List.length_take]; omega),
            List.getD_eq_getElem _ _ (by rw [List.length_take]; omega),
            List.getD_eq_getElem _ _ (by omega)]
          exact List.getElem_take map
        · rw [if_neg hp]
          unfold pageAt
          rw [List.getD_append_right _ _ _ _ (by rw [List.length_take]; omega)]
          congr 1
          rw [List.length_take]
          omega
      have hdropD : ∀ k, (map.drop (s / 256)).getD k BlockPage.empty =
          pageAt map (s / 256 + k) :=
        fun k => getD_drop map (s / 256) k
      refine ⟨hlen', ?_, ?_, ?_⟩
      · intro b
        rw [mapTestBit, mapTestBit, hpage (b / 256)]
        by_cases hp : b / 256 < s / 256
        · rw [if_pos hp]
          have : ¬ (s ≤ b ∧ b < e ∧ b / 256 < map.length) := by omega
          simp [this]
        · rw [if_neg hp]
          by_cases hpl2 : b / 256 < map.length
          · have hj : b / 256 - s / 256 < (map.drop (s / 256)).length := by
              rw [List.length_drop]
              omega
            have hb256 : 256 * (b / 256) + b % 256 = b := by omega
            have := hbits (b / 256 - s / 256) (b % 256) hj (by omega)
            rw [hdropD (b / 256 - s / 256)] at this
            have hidx : s / 256 + (b / 256 - s / 256) = b / 256 := by omega
            rw [hidx] at this
            rw [this]
            unfold pageAt
            congr 1
            rw [decide_eq_decide]
            omega
          · have hj : (map.drop (s / 256)).length ≤ b / 256 - s / 256 := by
              rw [List.length_drop]
              omega
            rw [List.getD_eq_default _ _ (by omega)]
            unfold pageAt
            rw [List.getD_eq_default _ _ (by omega)]
            have : ¬ (s ≤ b ∧ b < e ∧ b / 256 < map.length) := by omega
            simp [this]
      · intro b hb1 hb2 hb3
        have hj : b / 256 - s / 256 < (map.drop (s / 256)).length := by
          rw [List.length_drop]
          omega
        have := hclear (b / 256 - s / 256) (b % 256) hj (by omega) (by omega)
          (by omega) (by omega)
        rw [hdropD (b / 256 - s / 256)] at this
        have hidx : s / 256 + (b / 256 - s / 256) = b / 256 := by omega
        rw [hidx] at this
        rw [mapTestBit]
        exact this
      · intro i
        rw [hev i, hdropD (i - s / 256)]
        constructor
        · rintro ⟨hge, hlt_take, hlt_len, hold, hnew⟩
          rw [show s / 256 + (i - s / 256) = i by omega] at hold
          refine ⟨hold, ?_⟩
          rw [hpage i, if_neg (by omega)]
          exact hnew
        · rintro ⟨hold, hnew⟩
          rw [hpage i] at hnew
          by_cases hip : i < s / 256
          · rw [if_pos hip] at hnew
            rw [hold] at hnew
            cases hnew
          · rw [if_neg hip] at hnew
            have hlen_i : i < map.length := by
              by_contra hcon
              push_neg at hcon
              rw [List.getD_eq_default _ _ (by omega)] at hnew
              simp [BlockPage.empty, BlockPage.is_empty] at hnew
            have hjtake : i - s / 256 < (e + 256 - 1) / 256 - s / 256 := by
              by_contra hcon
              push_neg at hcon
              rw [hunch _ hcon, hdropD,
                show s / 256 + (i - s / 256) = i by omega, hold] at hnew
              cases hnew
            refine ⟨by omega, hjtake, by rw [List.length_drop]; omega, ?_, hnew⟩
            rw [show s / 256 + (i - s / 256) = i by omega]
            exact hold

/-! ## Growth preserves the existing pages -/

theorem grow_some_append (map : List BlockPage) (req : Nat) (map₂ : List BlockPage)
    (h : grow map req = some map₂) :
    ∃ k, map₂ = map ++ List.replicate k BlockPage.empty := by
  by_cases hreq : req = 0
  · rw [grow, if_pos hreq] at h
    cases h
  · rw [grow_eq_append map req hreq] at h
    exact ⟨_, (Option.some.injEq .. ▸ h).symm⟩

theorem append_empty_pageAt (map : List BlockPage) (k i : Nat) :
    pageAt (map ++ List.replicate k BlockPage.empty) i = pageAt map i := by
  unfold pageAt
  by_cases h : i < map.length
  · exact List.getD_append _ _ _ _ h
  · rw [List.getD_append_right _ _ _ _ (by omega),
      List.getD_eq_default map _ (by omega)]
    by_cases h2 : i - map.length < k
    · rw [List.getD_eq_getElem _ _ (by simpa using h2)]
      exact List.getElem_replicate ..
    · rw [List.getD_eq_default _ _ (by simpa using h2)]

theorem append_empty_mapTestBit (map : List BlockPage) (k b : Nat) :
    mapTestBit (map ++ List.replicate k BlockPage.empty) b = mapTestBit map b := by
  rw [mapTestBit, mapTestBit, append_empty_pageAt]

theorem append_empty_wf (map : List BlockPage) (k : Nat) (hwf : MapWF map) :
    MapWF (map ++ List.replicate k BlockPage.empty) := by
  intro bp hbp
  rcases List.mem_append.mp hbp with hm | hm
  · exact hwf bp hm
  · rw [List.eq_of_mem_replicate hm]
    rfl

/-! ## Specification of `alloc` -/

/-- The map-and-frame events of any successful `alloc` call correspond
exactly to the empty → nonempty transitions of the block pages (the C3
direction); stated for any fuel, size and alignment. -/
theorem alloc_events_helper :
    ∀ (fuel : Nat) (map : List BlockPage) (size align p : Nat)
      (map' : List BlockPage) (ev : List Nat), MapWF map →
      alloc fuel map size align = some (p, map', ev) →
      ∀ i, i ∈ ev ↔
        ((pageAt map i).is_empty = true ∧ (pageAt map' i).is_empty = false) := by
  intro fuel
  induction fuel with
  | zero =>
    intro map size align p map' ev hwf h
    exact absurd h (by simp [alloc])
  | succ n ih =>
    intro map size align p map' ev hwf h
    simp only [alloc] at h
    set sib := (size + (BLOCK_SIZE - 1)) / BLOCK_SIZE with hsib
    set A := if align &&& (16 - 1) = 0 then align else 16 with hA
    set res := allocScanPages sib A map 0 0 with hres
    by_cases hrun : res.run < sib
    · rw [if_pos hrun] at h
      rcases hg : grow map sib with - | m
      · rw [hg] at h
        exact Option.noConfusion h
      · rw [hg] at h
        obtain ⟨k, hk⟩ := grow_some_append _ _ _ hg
        subst hk
        have := ih _ size align p map' ev (append_empty_wf map k hwf) h
        intro i
        rw [this i, append_empty_pageAt]
    · rw [if_neg hrun] at h
      rcases hm : allocMark map (res.index - res.run) res.index with - | ⟨map₀, ev₀⟩
      · rw [hm] at h
        exact Option.noConfusion h
      · rw [hm] at h
        simp only [Option.some.injEq, Prod.mk.injEq] at h
        obtain ⟨-, hmap, hev⟩ := h
        subst hmap hev
        exact (allocMark_spec map _ _ hwf (by omega) map₀ ev₀ hm).2.2.2

theorem BLOCK_SIZE_eq : BLOCK_SIZE = 16 := rfl

/-- Full functional specification of a successful `alloc` call for a
nonzero size: the returned pointer meets the effective alignment (the
requested one when it is a multiple of 16, otherwise 16), and the call
sets exactly the `ceil(size/16)` occupancy bits of the claimed block
range, all of which were clear before the call. -/
theorem alloc_spec_helper (size align : Nat) (hsize : 1 ≤ size) :
    ∀ (fuel : Nat) (map : List BlockPage), MapWF map →
      ∀ p map' ev, alloc fuel map size align = some (p, map', ev) →
        p % (if align &&& (16 - 1) = 0 then align else 16) = 0 ∧
        p % 16 = 0 ∧
        (∀ b, p / 16 ≤ b → b < p / 16 + (size + 15) / 16 → mapTestBit map b = false) ∧
        (∀ b, mapTestBit map' b =
          (mapTestBit map b ||
            decide (p / 16 ≤ b ∧ b < p / 16 + (size + 15) / 16))) := by
  intro fuel
  induction fuel with
  | zero =>
    intro map hwf p map' ev h
    exact absurd h (by simp [alloc])
  | succ n ih =>
    intro map hwf p map' ev h
    simp only [alloc] at h
    set sib := (size + (BLOCK_SIZE - 1)) / BLOCK_SIZE with hsib
    set A := if align &&& (16 - 1) = 0 then align else 16 with hA
    set res := allocScanPages sib A map 0 0 with hres
    have hsib16 : sib = (size + 15) / 16 := by rw [hsib, BLOCK_SIZE_eq]
    have hsib1 : 1 ≤ sib := by rw [hsib16]; omega
    by_cases hrun : res.run < sib
    · rw [if_pos hrun] at h
      rcases hg : grow map sib with - | m
      · rw [hg] at h
        exact Option.noConfusion h
      · rw [hg] at h
        obtain ⟨k, hk⟩ := grow_some_append _ _ _ hg
        subst hk
        obtain ⟨h1, h2, h3, h4⟩ := ih _ (append_empty_wf map k hwf) p map' ev h
        refine ⟨h1, h2, ?_, ?_⟩
        · intro b hb1 hb2
          rw [← append_empty_mapTestBit map k b]
          exact h3 b hb1 hb2
        · intro b
          rw [← append_empty_mapTestBit map k b]
          exact h4 b
    · rw [if_neg hrun] at h
      rcases hresc : res with ⟨i, r⟩ | ⟨i, r⟩
      · have hscan : allocScanPages sib A map 0 0 = ScanRes.found i r := by
          rw [← hres]
          exact hresc
        obtain ⟨hr, hi, halign, hbound⟩ :=
          (allocScanPages_inv sib A hsib1 map 0 0 hwf (by omega) (by omega)
            (by omega)).1 i r hscan
        rw [hresc] at h
        simp only [ScanRes.index, ScanRes.run] at h
        rcases hm : allocMark map (i - r) i with - | ⟨map₀, ev₀⟩
        · rw [hm] at h
          exact Option.noConfusion h
        · rw [hm] at h
          simp only [Option.some.injEq, Prod.mk.injEq] at h
          obtain ⟨hp, hmap, hev⟩ := h
          subst hmap hev
          obtain ⟨hlen, hbits, hclear, -⟩ :=
            allocMark_spec map (i - r) i hwf (by omega) map₀ ev₀ hm
          have hp16 : p = (i - r) * 16 := by rw [← hp, BLOCK_SIZE_eq]
          have hpdiv : p / 16 = i - r := by
            rw [hp16]
            exact Nat.mul_div_cancel _ (by norm_num)
          have hiend : p / 16 + (size + 15) / 16 = i := by
            rw [hpdiv, ← hsib16]
            omega
          refine ⟨?_, ?_, ?_, ?_⟩
          · have hmod : (i - r) % A = 0 := by
              have : i - r = i - sib := by omega
              rw [this]
              exact halign
            rw [hp16, Nat.mul_mod, hmod, Nat.zero_mul, Nat.zero_mod]
          · rw [hp16]
            exact Nat.mul_mod_left _ _
          · intro b hb1 hb2
            rw [hpdiv] at hb1
            rw [hiend] at hb2
            exact hclear b hb1 hb2 (by omega)
          · intro b
            rw [hbits b]
            congr 1
            rw [decide_eq_decide, hpdiv]
            omega
      · have hscan : allocScanPages sib A map 0 0 = ScanRes.cont i r := by
          rw [← hres]
          exact hresc
        obtain ⟨hr, -, -, -⟩ :=
          (allocScanPages_inv sib A hsib1 map 0 0 hwf (by omega) (by omega)
            (by omega)).2 i r hscan
        rw [hresc] at hrun
        simp only [ScanRes.run] at hrun
        omega

/-- When the requested alignment is not a multiple of 16, `alloc` behaves
exactly as if the alignment were 16 (the silent downgrade). -/
theorem alloc_align_downgrade (size align : Nat)
    (halign : ¬ align &&& (16 - 1) = 0) :
    ∀ fuel map, alloc fuel map size align = alloc fuel map size 16 := by
  intro fuel
  induction fuel with
  | zero => intro map; rfl
  | succ n ih =>
    intro map
    simp only [alloc, if_neg halign, ite_self, ih]

/-! ## Marking-pass invariants of `dealloc` -/

/-- Effect of the marking pass of `dealloc` on one section: the covered
bits of this section are cleared and were all set (the source's
assertion). -/
theorem deallocMarkSection_spec (s e mi si sec bi skip : Nat) (hse : s ≤ e)
    (hbi : bi = max s (min e (mi * 256 + si * 64)))
    (hskip : skip = s / 64 - (4 * mi + si)) :
    ∀ sec' st bi' skip',
      deallocMarkSection mi si e sec bi skip = some (sec', st, bi', skip') →
        bi' = max s (min e (mi * 256 + (si + 1) * 64)) ∧
        skip' = s / 64 - (4 * mi + (si + 1)) ∧
        st = ⟨decide (0 < sec), decide (0 < sec')⟩ ∧
        (∀ t, t < 64 →
          sec'.testBit t =
            (sec.testBit t &&
              !decide (s ≤ mi * 256 + si * 64 + t ∧ mi * 256 + si * 64 + t < e))) ∧
        (∀ t, t < 64 → s ≤ mi * 256 + si * 64 + t → mi * 256 + si * 64 + t < e →
          sec.testBit t = true) := by
  intro sec' st bi' skip' h
  simp only [deallocMarkSection] at h
  by_cases h0 : 0 < skip
  · rw [if_pos h0] at h
    simp only [Option.some.injEq, Prod.mk.injEq] at h
    obtain ⟨h1, h2, h3, h4⟩ := h
    have hs64 : mi * 256 + si * 64 + 64 ≤ s := by omega
    refine ⟨by omega, by omega, by rw [← h1, ← h2], ?_, ?_⟩
    · intro t ht
      rw [← h1]
      have : ¬ (s ≤ mi * 256 + si * 64 + t ∧ mi * 256 + si * 64 + t < e) := by omega
      simp [this]
    · intro t ht hta htb
      omega
  · have hsk0 : skip = 0 := by omega
    have hsle : s < mi * 256 + si * 64 + 64 := by omega
    by_cases h2 : bi < e
    · rw [if_neg h0, if_pos h2] at h
      have htr : mi * 256 + si * 64 < e := by omega
      have hbitr : bi = max s (mi * 256 + si * 64) := by omega
      simp only [calculate_bit_fields, BLOCK_COUNT_eq, SECTION_LEN_eq] at h
      set tr := mi * 256 + si * 64 with htrdef
      set off := bi - tr with hoffdef
      have hoff : off < 64 := by omega
      set cnt := min 64 (e - tr) - off with hcntdef
      have hcnt : 1 ≤ cnt := by omega
      have hmask : ∀ t, (U64_BIT_MASKS (cnt - 1) <<< off).testBit t =
          decide (off ≤ t ∧ t < off + cnt) :=
        fun t => u64BitMask_testBit cnt off t hcnt
      have hcover : ∀ t, t < 64 →
          ((off ≤ t ∧ t < off + cnt) ↔ (s ≤ tr + t ∧ tr + t < e)) := by
        intro t ht
        omega
      split at h
      · next hassert =>
        simp only [Option.some.injEq, Prod.mk.injEq] at h
        obtain ⟨h1, h3, h4, h5⟩ := h
        have hsub : ∀ t, (U64_BIT_MASKS (cnt - 1) <<< off).testBit t = true →
            sec.testBit t = true :=
          (and_eq_self_iff_testBit sec _).mp hassert
        have hset : ∀ t, t < 64 → s ≤ tr + t → tr + t < e → sec.testBit t = true := by
          intro t ht hta htb
          exact hsub t (by rw [hmask t]; exact decide_eq_true ((hcover t ht).mpr ⟨hta, htb⟩))
        refine ⟨by omega, by omega, by rw [← h3, ← h1], ?_, hset⟩
        intro t ht
        rw [← h1, xor_subset_testBit sec _ hsub t, hmask t]
        congr 2
        rw [decide_eq_decide]
        exact hcover t ht
      · exact absurd h (by simp)
    · rw [if_neg h0, if_neg h2] at h
      simp only [Option.some.injEq, Prod.mk.injEq] at h
      obtain ⟨h1, h3, h4, h5⟩ := h
      have hbe : bi = e := by omega
      have hnone : ∀ t, t < 64 →
          ¬ (s ≤ mi * 256 + si * 64 + t ∧ mi * 256 + si * 64 + t < e) := by
        intro t ht
        omega
      refine ⟨by omega, by omega, by rw [← h3, ← h1], ?_, ?_⟩
      · intro t ht
        rw [← h1]
        simp [hnone t ht]
      · intro t ht hta htb
        exact absurd ⟨hta, htb⟩ (hnone t ht)

/-- Effect of the marking pass of `dealloc` on the section list of one
block page. -/
theorem deallocMarkSections_spec (s e mi : Nat) (hse : s ≤ e) :
    ∀ (secs : List Nat) (si bi skip : Nat),
      bi = max s (min e (mi * 256 + si * 64)) →
      skip = s / 64 - (4 * mi + si) →
      ∀ secs' states bi' skip',
        deallocMarkSections mi e secs si bi skip = some (secs', states, bi', skip') →
          secs'.length = secs.length ∧
          states = List.zipWith
            (fun a b => SectionState.mk (decide (0 < a)) (decide (0 < b))) secs secs' ∧
          bi' = max s (min e (mi * 256 + (si + secs.length) * 64)) ∧
          skip' = s / 64 - (4 * mi + si + secs.length) ∧
          (∀ j t, j < secs.length → t < 64 →
            (secs'.getD j 0).testBit t =
              ((secs.getD j 0).testBit t &&
                !decide (s ≤ mi * 256 + (si + j) * 64 + t ∧
                  mi * 256 + (si + j) * 64 + t < e))) ∧
          (∀ j t, j < secs.length → t < 64 →
            s ≤ mi * 256 + (si + j) * 64 + t → mi * 256 + (si + j) * 64 + t < e →
            (secs.getD j 0).testBit t = true) := by
  intro secs
  induction secs with
  | nil =>
    intro si bi skip hbi hskip secs' states bi' skip' h
    rw [deallocMarkSections] at h
    simp only [Option.some.injEq, Prod.mk.injEq] at h
    obtain ⟨h1, h2, h3, h4⟩ := h
    subst h1 h2
    refine ⟨rfl, rfl, by simp only [List.length_nil, Nat.add_zero]; omega,
      by simp only [List.length_nil, Nat.add_zero]; omega, ?_, ?_⟩
    · intro j t hj
      simp at hj
    · intro j t hj
      simp at hj
  | cons sec rest ih =>
    intro si bi skip hbi hskip secs' states bi' skip' h
    rw [deallocMarkSections] at h
    rcases hsec : deallocMarkSection mi si e sec bi skip with - | ⟨sec₀, st, bi₀, skip₀⟩
    · rw [hsec] at h
      exact Option.noConfusion h
    · rw [hsec] at h
      dsimp only at h
      obtain ⟨hbi₀, hskip₀, hst, hbits₀, hset₀⟩ :=
        deallocMarkSection_spec s e mi si sec bi skip hse hbi hskip sec₀ st bi₀ skip₀ hsec
      rcases hrest : deallocMarkSections mi e rest (si + 1) bi₀ skip₀ with
        - | ⟨rest', states₀, bi₁, skip₁⟩
      · rw [hrest] at h
        exact Option.noConfusion h
      · rw [hrest] at h
        simp only [Option.some.injEq, Prod.mk.injEq] at h
        obtain ⟨h1, h2, h3, h4⟩ := h
        obtain ⟨ihl, ihz, ihbi, ihskip, ihbits, ihset⟩ :=
          ih (si + 1) bi₀ skip₀ hbi₀ (by omega) rest' states₀ bi₁ skip₁ hrest
        subst h1 h2
        refine ⟨by simp [ihl], ?_, ?_, ?_, ?_, ?_⟩
        · rw [List.zipWith_cons_cons, ihz, hst]
        · rw [← h3, ihbi]
          have : si + 1 + rest.length = si + (rest.length + 1) := by omega
          rw [this]
          simp
        · rw [← h4, ihskip]
          simp only [List.length_cons]
          omega
        · intro j t hj ht
          cases j with
          | zero =>
            simp only [List.getD_cons_zero]
            have : si + 0 = si := rfl
            rw [this]
            exact hbits₀ t ht
          | succ j' =>
            simp only [List.getD_cons_succ]
            have hpos : si + (j' + 1) = si + 1 + j' := by omega
            rw [hpos]
            exact ihbits j' t (by simpa using hj) ht
        · intro j t hj ht hta htb
          cases j with
          | zero =>
            simp only [List.getD_cons_zero]
            exact hset₀ t ht (by simpa using hta) (by simpa using htb)
          | succ j' =>
            simp only [List.getD_cons_succ]
            have hpos : si + (j' + 1) = si + 1 + j' := by omega
            rw [hpos] at hta htb
            exact ihset j' t (by simpa using hj) ht hta htb

/-- Effect of the page loop of the marking pass of `dealloc`: visited
pages lose exactly the covered bits of `[s, e)` (all previously set), and
a dealloc event (frame freed, page unmapped) is recorded exactly for the
visited pages that transition from nonempty to empty. -/
theorem deallocMarkPages_spec (s e : Nat) (hse : s ≤ e) :
    ∀ (pages : List BlockPage) (mi take bi skip : Nat),
      (∀ bp ∈ pages, bp.sections.length = BlockPage.SECTION_COUNT) →
      bi = max s (min e (mi * 256)) →
      skip = s / 64 - 4 * mi →
      ∀ pages' events bi' skip',
        deallocMarkPages e pages mi take bi skip = some (pages', events, bi', skip') →
          pages'.length = pages.length ∧
          (∀ j, take ≤ j → pages'.getD j BlockPage.empty = pages.getD j BlockPage.empty) ∧
          (∀ j t, j < pages.length → t < 256 →
            sectionsTestBit (pages'.getD j BlockPage.empty).sections t =
              (sectionsTestBit (pages.getD j BlockPage.empty).sections t &&
                !decide (j < take ∧ s ≤ (mi + j) * 256 + t ∧ (mi + j) * 256 + t < e))) ∧
          (∀ j t, j < pages.length → j < take → t < 256 →
            s ≤ (mi + j) * 256 + t → (mi + j) * 256 + t < e →
            sectionsTestBit (pages.getD j BlockPage.empty).sections t = true) ∧
          (∀ i, i ∈ events ↔
            (mi ≤ i ∧ i - mi < take ∧ i - mi < pages.length ∧
              (pages.getD (i - mi) BlockPage.empty).is_empty = false ∧
              (pages'.getD (i - mi) BlockPage.empty).is_empty = true)) := by
  intro pages
  induction pages with
  | nil =>
    intro mi take bi skip hwf hbi hskip pages' events bi' skip' h
    have hsome : pages' = [] ∧ events = [] := by
      cases take with
      | zero =>
        rw [deallocMarkPages] at h
        simp only [Option.some.injEq, Prod.mk.injEq] at h
        exact ⟨h.1.symm, h.2.1.symm⟩
      | succ tc =>
        rw [deallocMarkPages] at h
        simp only [Option.some.injEq, Prod.mk.injEq] at h
        exact ⟨h.1.symm, h.2.1.symm⟩
    obtain ⟨hp, hev⟩ := hsome
    subst hp hev
    refine ⟨rfl, fun j hj => rfl, ?_, ?_, ?_⟩
    · intro j t hj
      simp at hj
    · intro j t hj
      simp at hj
    · intro i
      simp
  | cons bp rest ih =>
    intro mi take bi skip hwf hbi hskip pages' events bi' skip' h
    have hwfbp : bp.sections.length = 4 := hwf bp (List.mem_cons_self ..)
    have hwfrest : ∀ p ∈ rest, p.sections.length = BlockPage.SECTION_COUNT :=
      fun p hp => hwf p (List.mem_cons_of_mem _ hp)
    cases take with
    | zero =>
      rw [deallocMarkPages] at h
      simp only [Option.some.injEq, Prod.mk.injEq] at h
      obtain ⟨h1, h2, h3, h4⟩ := h
      subst h1 h2
      refine ⟨rfl, fun j hj => rfl, ?_, ?_, ?_⟩
      · intro j t hj ht
        simp
      · intro j t hj hj0
        simp at hj0
      · intro i
        simp
    | succ tc =>
      rw [deallocMarkPages] at h
      rcases hsecs : deallocMarkSections mi e bp.sections 0 bi skip with
        - | ⟨secs', states, bi₀, skip₀⟩
      · rw [hsecs] at h
        exact Option.noConfusion h
      · rw [hsecs] at h
        dsimp only at h
        obtain ⟨hsl, hsz, hsbi, hsskip, hsbits, hsset⟩ :=
          deallocMarkSections_spec s e mi hse bp.sections 0 bi skip
            (by omega) (by omega) secs' states bi₀ skip₀ hsecs
        rw [hwfbp] at hsbi hsskip
        have hbi₀ : bi₀ = max s (min e ((mi + 1) * 256)) := by
          rw [hsbi]
          have : mi * 256 + (0 + 4) * 64 = (mi + 1) * 256 := by ring
          rw [this]
        have hskip₀ : skip₀ = s / 64 - 4 * (mi + 1) := by
          rw [hsskip]
          omega
        rcases hrest : deallocMarkPages e rest (mi + 1) tc bi₀ skip₀ with
          - | ⟨rest', evs, bi₁, skip₁⟩
        · rw [hrest] at h
          exact Option.noConfusion h
        · rw [hrest] at h
          simp only [Option.some.injEq, Prod.mk.injEq] at h
          obtain ⟨h1, h2, h3, h4⟩ := h
          obtain ⟨ihl, ihunch, ihbits, ihset, ihev⟩ :=
            ih (mi + 1) tc bi₀ skip₀ hwfrest hbi₀ hskip₀ rest' evs bi₁ skip₁ hrest
          have hshould : SectionState.should_dealloc states =
              (BlockPage.is_empty ⟨secs'⟩ && !bp.is_empty) := by
            rw [hsz, should_dealloc_zipWith bp.sections secs' hsl]
          subst h1 h2
          refine ⟨by simp [ihl], ?_, ?_, ?_, ?_⟩
          · intro j hj
            cases j with
            | zero => omega
            | succ j' =>
              simp only [List.getD_cons_succ]
              exact ihunch j' (by omega)
          · intro j t hj ht
            cases j with
            | zero =>
              simp only [List.getD_cons_zero]
              rw [sectionsTestBit, sectionsTestBit]
              have := hsbits (t / 64) (t % 64) (by omega) (by omega)
              rw [this]
              congr 2
              rw [decide_eq_decide]
              have hpos : mi * 256 + (0 + t / 64) * 64 + t % 64 = mi * 256 + t := by omega
              rw [hpos]
              omega
            | succ j' =>
              simp only [List.getD_cons_succ]
              rw [ihbits j' t (by simpa using hj) ht]
              congr 2
              rw [decide_eq_decide]
              have : mi + 1 + j' = mi + (j' + 1) := by omega
              rw [this]
              omega
          · intro j t hj hjt ht hta htb
            cases j with
            | zero =>
              simp only [List.getD_cons_zero]
              rw [sectionsTestBit]
              have hpos : mi * 256 + (0 + t / 64) * 64 + t % 64 = mi * 256 + t := by omega
              exact hsset (t / 64) (t % 64) (by omega) (by omega)
                (by rw [hpos]; simpa using hta) (by rw [hpos]; simpa using htb)
            | succ j' =>
              simp only [List.getD_cons_succ]
              have hpos : mi + 1 + j' = mi + (j' + 1) := by omega
              exact ihset j' t (by simpa using hj) (by omega) ht
                (by rw [hpos]; exact hta) (by rw [hpos]; exact htb)
          · intro i
            have hevrange : ∀ k, k ∈ evs → mi + 1 ≤ k :=
              fun k hk => ((ihev k).mp hk).1
            rcases Nat.lt_trichotomy i mi with hcmp | hcmp | hcmp
            · constructor
              · intro hin
                exfalso
                by_cases hsa : SectionState.should_dealloc states = true
                · rw [if_pos hsa] at hin
                  rcases List.mem_cons.mp hin with hreq | hreq
                  · omega
                  · have := hevrange i hreq
                    omega
                · rw [if_neg hsa] at hin
                  have := hevrange i hin
                  omega
              · intro hr
                omega
            · subst hcmp
              simp only [Nat.sub_self, List.getD_cons_zero]
              constructor
              · intro hin
                by_cases hsa : SectionState.should_dealloc states = true
                · rw [hshould] at hsa
                  obtain ⟨he1, he2⟩ := Bool.and_eq_true_iff.mp hsa
                  refine ⟨le_refl i, by omega, by simp, by simpa using he2, he1⟩
                · rw [if_neg hsa] at hin
                  have := hevrange i hin
                  omega
              · rintro ⟨-, -, -, hold, hnew⟩
                have hsa : SectionState.should_dealloc states = true := by
                  rw [hshould, hold, hnew]
                  rfl
                rw [if_pos hsa]
                exact List.mem_cons_self ..
            · have hne : i ≠ mi := by omega
              have hstep : i ∈ (if SectionState.should_dealloc states = true
                  then mi :: evs else evs) ↔ i ∈ evs := by
                split
                · rw [List.mem_cons]
                  constructor
                  · rintro (hq | hq)
                    · omega
                    · exact hq
                  · exact fun hq => Or.inr hq
                · exact Iff.rfl
              rw [hstep, ihev i]
              have hsub : i - mi = (i - (mi + 1)) + 1 := by omega
              rw [hsub]
              simp only [List.getD_cons_succ, List.length_cons]
              constructor
              · rintro ⟨ha, hb, hc, hd, hf⟩
                exact ⟨by omega, by omega, by omega, hd, hf⟩
              · rintro ⟨ha, hb, hc, hd, hf⟩
                exact ⟨by omega, by omega, by omega, hd, hf⟩

/-- Effect of the whole marking pass of `dealloc`: every bit of `[s, e)`
falling on an existing page was set (the source's assertion — a clear bit
in the range makes the call fatal) and becomes clear; other bits are
untouched; a frame is freed and its page unmapped exactly for the pages
that transition nonempty → empty. -/
theorem deallocMark_spec (map : List BlockPage) (s e : Nat)
    (hwf : MapWF map) (hse : s ≤ e) :
    ∀ map' events, deallocMark map s e = some (map', events) →
      map'.length = map.length ∧
      (∀ b, mapTestBit map' b =
        (mapTestBit map b && !decide (s ≤ b ∧ b < e ∧ b / 256 < map.length))) ∧
      (∀ b, s ≤ b → b < e → b / 256 < map.length → mapTestBit map b = true) ∧
      (∀ i, i ∈ events ↔
        ((pageAt map i).is_empty = false ∧ (pageAt map' i).is_empty = true)) := by
  intro map' events h
  simp only [deallocMark, BLOCK_COUNT_eq, SECTION_LEN_eq, SECTION_COUNT_eq,
    align_down_div, align_up_div] at h
  rcases hmp : deallocMarkPages e (map.drop (s / 256)) (s / 256)
      ((e + 256 - 1) / 256 - s / 256) s (s / 64 - s / 256 * 4) with
    - | ⟨pages', evs, bi₁, skip₁⟩
  · rw [hmp] at h
    exact Option.noConfusion h
  · rw [hmp] at h
    simp only [Option.some.injEq, Prod.mk.injEq] at h
    obtain ⟨hmap', hevents⟩ := h
    obtain ⟨hpl, hunch, hbits, hset, hev⟩ :=
      deallocMarkPages_spec s e hse (map.drop (s / 256)) (s / 256)
        ((e + 256 - 1) / 256 - s / 256) s (s / 64 - s / 256 * 4)
        (fun bp hbp => hwf bp (List.drop_subset _ _ hbp))
        (by omega) (by omega) pages' evs bi₁ skip₁ hmp
    rw [List.length_drop] at hpl
    subst hmap' hevents
    by_cases hsl : map.length ≤ s / 256
    · have hnil : map.drop (s / 256) = [] := List.drop_eq_nil_of_le hsl
      have hpnil : pages' = [] := List.length_eq_zero.mp (by omega)
      have hmapeq : map.take (s / 256) ++ pages' = map := by
        rw [hpnil, List.append_nil, List.take_all_of_le hsl]
      rw [hmapeq]
      refine ⟨rfl, ?_, ?_, ?_⟩
      · intro b
        have : ¬ (s ≤ b ∧ b < e ∧ b / 256 < map.length) := by omega
        simp [this]
      · intro b hb1 hb2 hb3
        omega
      · intro i
        simp only [hpnil] at hev
        rw [hev i]
        constructor
        · rintro ⟨-, -, hlt, -⟩
          rw [hnil] at hlt
          simp at hlt
        · rintro ⟨hemp, hnemp⟩
          rw [hemp] at hnemp
          cases hnemp
    · push_neg at hsl
      have hlen' : (map.take (s / 256) ++ pages').length = map.length := by
        rw [List.length_append, List.length_take]
        omega
      have hpage : ∀ p, pageAt (map.take (s / 256) ++ pages') p =
          if p < s / 256 then pageAt map p
          else pages'.getD (p - s / 256) BlockPage.empty := by
        intro p
        by_cases hp : p < s / 256
        · rw [if_pos hp]
          unfold pageAt
          rw [List.getD_append _ _ _ _ (by rw [List.length_take]; omega),
            List.getD_eq_getElem _ _ (by rw [List.length_take]; omega),
            List.getD_eq_getElem _ _ (by omega)]
          exact List.getElem_take map
        · rw [if_neg hp]
          unfold pageAt
          rw [List.getD_append_right _ _ _ _ (by rw [List.length_take]; omega)]
          congr 1
          rw [List.length_take]
          omega
      have hdropD : ∀ k, (map.drop (s / 256)).getD k BlockPage.empty =
          pageAt map (s / 256 + k) :=
        fun k => getD_drop map (s / 256) k
      refine ⟨hlen', ?_, ?_, ?_⟩
      · intro b
        rw [mapTestBit, mapTestBit, hpage (b / 256)]
        by_cases hp : b / 256 < s / 256
        · rw [if_pos hp]
          have : ¬ (s ≤ b ∧ b < e ∧ b / 256 < map.length) := by omega
          simp [this]
        · rw [if_neg hp]
          by_cases hpl2 : b / 256 < map.length
          · have hj : b / 256 - s / 256 < (map.drop (s / 256)).length := by
              rw [List.length_drop]
              omega
            have := hbits (b / 256 - s / 256) (b % 256) hj (by omega)
            rw [hdropD (b / 256 - s / 256)] at this
            have hidx : s / 256 + (b / 256 - s / 256) = b / 256 := by omega
            rw [hidx] at this
            rw [this]
            unfold pageAt
            congr 2
            rw [decide_eq_decide]
            omega
          · have hj : (map.drop (s / 256)).length ≤ b / 256 - s / 256 := by
              rw [List.length_drop]
              omega
            rw [List.getD_eq_default _ _ (by omega)]
            unfold pageAt
            rw [List.getD_eq_default _ _ (by omega)]
            have : ¬ (s ≤ b ∧ b < e ∧ b / 256 < map.length) := by omega
            simp [this]
      · intro b hb1 hb2 hb3
        have hj : b / 256 - s / 256 < (map.drop (s / 256)).length := by
          rw [List.length_drop]
          omega
        have := hset (b / 256 - s / 256) (b % 256) hj (by omega) (by omega)
          (by omega) (by omega)
        rw [hdropD (b / 256 - s / 256)] at this
        have hidx : s / 256 + (b / 256 - s / 256) = b / 256 := by omega
        rw [hidx] at this
        rw [mapTestBit]
        exact this
      · intro i
        rw [hev i, hdropD (i - s / 256)]
        constructor
        · rintro ⟨hge, hlt_take, hlt_len, hold, hnew⟩
          rw [show s / 256 + (i - s / 256) = i by omega] at hold
          refine ⟨hold, ?_⟩
          rw [hpage i, if_neg (by omega)]
          exact hnew
        · rintro ⟨hold, hnew⟩
          rw [hpage i] at hnew
          by_cases hip : i < s / 256
          · rw [if_pos hip] at hnew
            rw [hold] at hnew
            cases hnew
          · rw [if_neg hip] at hnew
            have hlen_i : i < map.length := by
              by_contra hcon
              push_neg at hcon
              have hdef : pageAt map i = BlockPage.empty := by
                unfold pageAt
                exact List.getD_eq_default _ _ (by omega)
              rw [hdef] at hold
              simp [BlockPage.empty, BlockPage.is_empty] at hold
            have hjtake : i - s / 256 < (e + 256 - 1) / 256 - s / 256 := by
              by_contra hcon
              push_neg at hcon
              rw [hunch _ hcon, hdropD,
                show s / 256 + (i - s / 256) = i by omega, hold] at hnew
              cases hnew
            refine ⟨by omega, hjtake, by rw [List.length_drop]; omega, ?_, hnew⟩
            rw [show s / 256 + (i - s / 256) = i by omega]
            exact hold

/-! ## Claims C1, C3, C6 -/

theorem and_fifteen_eq_mod (x : Nat) : x &&& (16 - 1) = x % 16 := by
  have h : (16 - 1 : Nat) = 2 ^ 4 - 1 := by norm_num
  rw [h, Nat.and_pow_two_sub_one_eq_mod]

theorem singleton_wf (bp : BlockPage) (h : bp.sections.length = BlockPage.SECTION_COUNT) :
    MapWF [bp] := by
  intro x hx
  simp only [List.mem_singleton] at hx
  subst hx
  exact h

/-- C1 (amended): for every size ≥ 1 and every alignment, a successful
`alloc(size, align)` returns a pointer `p` meeting the requested alignment
when it is a multiple of 16 (and always 16-byte aligned), whose block
range holds exactly `ceil(size/16)` occupancy bits, all clear immediately
before the call and all set after it, with every other bit untouched; an
alignment that is not a multiple of 16 makes the call behave exactly as
alignment 16.  (For size = 0 the pointer-alignment clause fails, see the
counterexample.) -/
theorem c1_alloc_pointer_and_bits (fuel size align : Nat) (map : List BlockPage)
    (p : Nat) (map' : List BlockPage) (ev : List Nat)
    (hwf : MapWF map) (hsize : 1 ≤ size) :
    (alloc fuel map size align = some (p, map', ev) →
      (align % 16 = 0 → p % align = 0) ∧
      p % 16 = 0 ∧
      (∀ b, p / 16 ≤ b → b < p / 16 + (size + 15) / 16 → mapTestBit map b = false) ∧
      (∀ b, mapTestBit map' b =
        (mapTestBit map b || decide (p / 16 ≤ b ∧ b < p / 16 + (size + 15) / 16)))) ∧
    (¬ align % 16 = 0 → alloc fuel map size align = alloc fuel map size 16) := by
  constructor
  · intro h
    obtain ⟨h1, h2, h3, h4⟩ := alloc_spec_helper size align hsize fuel map hwf p map' ev h
    refine ⟨?_, h2, h3, h4⟩
    intro hm
    rw [and_fifteen_eq_mod, if_pos hm] at h1
    exact h1
  · intro hm
    apply alloc_align_downgrade
    rw [and_fifteen_eq_mod]
    exact hm

/-- C1 counterexample: with size 0 (zero blocks requested) and alignment
32 — a multiple of 16 — on a map whose first block is occupied, the search
breaks immediately after resetting the run at the occupied bit and the
call returns pointer 16, which is not 32-byte aligned. -/
theorem c1_alloc_counterexample :
    alloc 1 [⟨[1, 0, 0, 0]⟩] 0 32 = some (16, [⟨[1, 0, 0, 0]⟩], []) ∧
    (32 : Nat) % 16 = 0 ∧ ¬ (16 : Nat) % 32 = 0 :=
  ⟨by decide, by decide, by decide⟩

/-- Witness for C1: allocating 16 bytes at alignment 16 from a one-page
empty map finds its run at block 0 and sets exactly occupancy bit 0. -/
theorem c1_alloc_pointer_and_bits_witness :
    mapTestBit [⟨[1, 0, 0, 0]⟩] 0 =
      (mapTestBit [⟨[0, 0, 0, 0]⟩] 0 ||
        decide (0 / 16 ≤ 0 ∧ 0 < 0 / 16 + (16 + 15) / 16)) :=
  (((c1_alloc_pointer_and_bits 1 16 16 [⟨[0, 0, 0, 0]⟩] 0
      [⟨[1, 0, 0, 0]⟩] [0]
      (singleton_wf _ rfl) (by norm_num)).1
    (by decide)).2.2.2) 0

/-- C3: in every successful `alloc` call a fresh frame is obtained (via
`falloc::lock_next`) and mapped exactly for the block pages whose 256-bit
occupancy bitmap goes all-zero → nonzero during the call, and in every
successful `dealloc` call the backing frame is freed and the page unmapped
exactly for the block pages whose bitmap goes nonzero → all-zero; a block
page whose emptiness does not change triggers no mapping event, so it
keeps its mapping state. -/
theorem c3_frame_backing_tracks_emptiness :
    (∀ fuel map size align p map' ev, MapWF map →
      alloc fuel map size align = some (p, map', ev) →
      ∀ i, i ∈ ev ↔
        ((pageAt map i).is_empty = true ∧ (pageAt map' i).is_empty = false)) ∧
    (∀ map ptr size map' ev, MapWF map →
      dealloc map ptr size = some (map', ev) →
      ∀ i, i ∈ ev ↔
        ((pageAt map i).is_empty = false ∧ (pageAt map' i).is_empty = true)) := by
  constructor
  · intro fuel map size align p map' ev hwf h
    exact alloc_events_helper fuel map size align p map' ev hwf h
  · intro map ptr size map' ev hwf h
    simp only [dealloc] at h
    exact (deallocMark_spec map (ptr / BLOCK_SIZE)
      (ptr / BLOCK_SIZE + align_up_div size BLOCK_SIZE) hwf
      (Nat.le_add_right ..) map' ev h).2.2.2

/-- Witness for C3: a 16-byte allocation on a one-page empty map backs
page 0 (empty → nonempty), and deallocating the only 16-byte block of a
one-page map frees page 0 (nonempty → empty). -/
theorem c3_frame_backing_tracks_emptiness_witness :
    ((0 : Nat) ∈ [0] ↔
      ((pageAt [⟨[0, 0, 0, 0]⟩] 0).is_empty = true ∧
        (pageAt [⟨[1, 0, 0, 0]⟩] 0).is_empty = false)) ∧
    ((0 : Nat) ∈ [0] ↔
      ((pageAt [⟨[1, 0, 0, 0]⟩] 0).is_empty = false ∧
        (pageAt [⟨[0, 0, 0, 0]⟩] 0).is_empty = true)) :=
  ⟨c3_frame_backing_tracks_emptiness.1 1 [⟨[0, 0, 0, 0]⟩] 16 16 0
      [⟨[1, 0, 0, 0]⟩] [0]
      (singleton_wf _ rfl) (by decide) 0,
    c3_frame_backing_tracks_emptiness.2 [⟨[1, 0, 0, 0]⟩] 0 16 [⟨[0, 0, 0, 0]⟩] [0]
      (singleton_wf _ rfl) (by decide) 0⟩

/-- C6: whenever the block range computed from the pointer and size
contains an occupancy bit that is already clear on an existing page — in
particular on a second `dealloc` of an already-freed range — `dealloc`
fails with the fatal assertion "attempting to deallocate blocks that are
already deallocated"; it never clears the remaining bits and returns. -/
theorem c6_dealloc_double_free_fatal (map : List BlockPage) (ptr size : Nat)
    (hwf : MapWF map)
    (hclear : ∃ b, ptr / 16 ≤ b ∧ b < ptr / 16 + align_up_div size 16 ∧
      b / 256 < map.length ∧ mapTestBit map b = false) :
    dealloc map ptr size = none := by
  rcases hclear with ⟨b, hb1, hb2, hb3, hb4⟩
  rcases hd : dealloc map ptr size with - | ⟨map', ev⟩
  · rfl
  · exfalso
    simp only [dealloc] at hd
    have hspec := (deallocMark_spec map (ptr / BLOCK_SIZE)
      (ptr / BLOCK_SIZE + align_up_div size BLOCK_SIZE) hwf
      (Nat.le_add_right ..) map' ev hd).2.2.1
    have hset := hspec b (by rw [BLOCK_SIZE_eq]; exact hb1)
      (by rw [BLOCK_SIZE_eq]; exact hb2) hb3
    rw [hb4] at hset
    cases hset

/-- Witness for C6: deallocating the first block of an all-clear page is
fatal. -/
theorem c6_dealloc_double_free_fatal_witness :
    dealloc [⟨[0, 0, 0, 0]⟩] 0 16 = none :=
  c6_dealloc_double_free_fatal [⟨[0, 0, 0, 0]⟩] 0 16 (singleton_wf _ rfl)
    ⟨0, by decide, by decide, by decide, by decide⟩

end GsaiOs
